import Mathlib

/-!
# gorm-driver-dm: clause rewriters and raw SQL post-processor

A shallow embedding of `dm.go` (`RewriteWhere`, `RewriteLimit`, `QuoteTo`) and
`raw.go` (`Raw`), followed by the properties proved about them.

Conventions of the embedding:

* a Go `string` is a Lean `String`; the library calls `strings.Contains`,
  `strings.ToLower`, `strings.ToUpper`, `strings.Trim`, `strings.Split` and
  `strconv.Itoa` are small list programs over the characters;
* a `clause.Builder` is an explicit value threaded through the rewriters; what
  the rewriters hand to it is recorded as a sequence of `Write`s, so that a call
  of an expression's own `Build` method (code of the ORM, not of the dialect) is
  recorded as such instead of being rendered;
* a run-time panic of Go is the `Except.error` result.
-/

namespace GormDM

/-! ## Data model -/

/-- A Go value of static type `interface{}`, as far as the dialect inspects it:
either a `[]interface{}` with its members, or a value of any other dynamic
type (numbers, strings, typed slices, ...), kept as an uninterpreted label. -/
inductive Value where
  | slice (vs : List Value)
  | other (repr : String)

/-- The implementations of `clause.Expression` that may stand in the list of a
`clause.Where`. `RewriteWhere` distinguishes `clause.OrConditions`,
`clause.AndConditions`, `clause.Expr` and `clause.IN`; every further
implementation (`clause.Eq`, `clause.Like`, ...) is `Other`. -/
inductive Expression where
  | OrConditions (Exprs : List Expression)
  | AndConditions (Exprs : List Expression)
  | Expr (SQL : String) (Vars : List Value)
  | IN (Column : String) (Values : List Value)
  | Other (name : String)

/-- One call received by a `clause.Builder`. `WriteByte` is recorded as a
`WriteString` of one character, `WriteQuoted` is the call of that name on a
builder whose implementation is not known. `Build e` is the call `e.Build(builder)` of the
ORM's own renderer on `e`; `BuildIN` is the call of `Build` on the dialect's
`clauses.IN` value made of the given column and values. -/
inductive Write where
  | WriteString (s : String)
  | WriteQuoted (field : String)
  | Build (e : Expression)
  | BuildIN (Column : String) (Values : List Value)

/-- The part of `schema.Field` the dialect reads. -/
structure Field where
  DBName : String
  DataType : String
  Size : Int
  Precision : Int
  Scale : Int
  PrimaryKey : Bool
  AutoIncrement : Bool
  NotNull : Bool
  HasDefaultValue : Bool
  TagSettings : List (String × String)

/-- The part of `schema.Schema` the dialect reads: the prioritized primary
field, a pointer that may be nil. -/
structure Schema where
  PrioritizedPrimaryField : Option Field

/-- The part of `gorm.Statement` the rewriters touch: the text buffer `SQL`
(as the writes it received), the keys of the `Clauses` map, and the `Schema`
pointer, which may be nil. -/
structure Statement where
  SQL : List Write
  Clauses : List String
  Schema : Option Schema

/-- A value of interface type `clause.Builder`: a `*gorm.Statement`, or any
other implementation, of which only the received writes are kept. -/
inductive Builder where
  | Statement (stmt : Statement)
  | Other (written : List Write)

/-- The expression held by a `clause.Clause`: a `clause.Where` with its list of
expressions, a `clause.Limit`, or anything else. -/
inductive ClauseExpression where
  | Where (Exprs : List Expression)
  | Limit (Limit : Int) (Offset : Int)
  | Other

/-- A `clause.Clause`: its name and its expression. -/
structure Clause where
  Name : String
  Expression : ClauseExpression

/-- Run-time failures of the Go code. -/
inductive Panic where
  | indexOutOfRange
  | nilDereference
  | divideByZero
  deriving DecidableEq

/-! ## The builder -/

/-- One write appended to the builder's buffer. -/
def Builder.write (b : Builder) (w : Write) : Builder :=
  match b with
  | .Statement stmt => .Statement ⟨stmt.SQL ++ [w], stmt.Clauses, stmt.Schema⟩
  | .Other written => .Other (written ++ [w])

/-- The call `builder.WriteString(s)`. -/
def Builder.WriteString (b : Builder) (s : String) : Builder :=
  b.write (.WriteString s)

/-- A sequence of writes, in order. -/
def Builder.writeAll (b : Builder) : List Write → Builder
  | [] => b
  | w :: ws => (b.write w).writeAll ws

/-- Everything the builder has received. -/
def Builder.written : Builder → List Write
  | .Statement stmt => stmt.SQL
  | .Other written => written

/-! ## Go string library -/

/-- Byte-wise `strings.Contains` on character lists: `sub` occurs in `s`. -/
def containsChars : List Char → List Char → Bool
  | [], sub => sub.isEmpty
  | c :: s, sub => sub.isPrefixOf (c :: s) || containsChars s sub

/-- The call `strings.Contains(s, substr)`. -/
def Contains (s substr : String) : Bool :=
  containsChars s.data substr.data

/-- The call `strings.ToLower(s)`. Go lowers every cased rune; the embedding
lowers `A`-`Z` and keeps the rest, which agrees with Go on every test the
dialect makes of the result (no rune outside `A`-`Z` lowers to a letter of
`and` or `or`). -/
def ToLower (s : String) : String :=
  ⟨s.data.map Char.toLower⟩

/-- The call `strings.ToUpper(s)`, on the same footing as `ToLower`: the
dialect upper-cases only texts matched by `[a-zA-Z0-9_]+`. -/
def ToUpper (s : String) : String :=
  ⟨s.data.map Char.toUpper⟩

/-- The call `strings.Trim(s, cutset)`: `s` without its leading and trailing
characters that occur in `cutset`. -/
def Trim (s cutset : String) : String :=
  ⟨((s.data.dropWhile fun c => cutset.data.contains c).reverse.dropWhile
      fun c => cutset.data.contains c).reverse⟩

/-- The segments of a character list between occurrences of `sep`. -/
def splitChars (sep : Char) : List Char → List (List Char)
  | [] => [[]]
  | c :: s =>
    if c = sep then [] :: splitChars sep s
    else
      match splitChars sep s with
      | seg :: segs => (c :: seg) :: segs
      | [] => [[c]]

/-- The call `strings.Split(s, sep)` for a separator of one character. -/
def Split (s : String) (sep : Char) : List String :=
  (splitChars sep s.data).map String.mk

/-- The call `strconv.Itoa(i)`: the decimal digits of `i`, after a minus sign
when `i` is negative. -/
def Itoa (i : Int) : String :=
  match i with
  | .ofNat n => Nat.repr n
  | .negSucc n => "-" ++ Nat.repr (n + 1)

/-! ## `QuoteTo` and the quoting of a statement -/

/-- The loop of `QuoteTo` over the segments of a dotted name, from index `idx`
on. -/
def quoteSegments (writer : List Write) : Nat → List String → List Write
  | _, [] => writer
  | idx, str :: rest =>
    let writer := if idx > 0 then writer ++ [.WriteString ".\""] else writer
    quoteSegments ((writer ++ [.WriteString str]) ++ [.WriteString "\""]) (idx + 1) rest

/-- The method `Dialector.QuoteTo`, on the buffer of a `clause.Writer`. -/
def QuoteTo (writer : List Write) (str : String) : List Write :=
  let writer := writer ++ [.WriteString "\""]
  if Contains str "." then
    quoteSegments writer 0 (Split str (Char.ofNat 46))
  else
    (writer ++ [.WriteString str]) ++ [.WriteString "\""]

/-- The call `builder.WriteQuoted(field)` with a string: a `*gorm.Statement`
hands its `SQL` buffer and the string to the `QuoteTo` of its dialect, here this
one; on any other builder the call is recorded. -/
def Builder.WriteQuoted (b : Builder) (field : String) : Builder :=
  match b with
  | .Statement stmt => .Statement ⟨QuoteTo stmt.SQL field, stmt.Clauses, stmt.Schema⟩
  | .Other written => .Other (written ++ [.WriteQuoted field])

/-! ## `RewriteLimit` -/

/-- The method `Dialector.DummyTableName`. -/
def DummyTableName : String := "DUAL"

/-- The method `Dialector.RewriteLimit`: the builder after the call. -/
def RewriteLimit (c : Clause) (builder : Builder) : Builder :=
  match c.Expression with
  | .Limit limit offset =>
    let builder :=
      match builder with
      | .Statement stmt =>
        if "ORDER BY" ∉ stmt.Clauses then
          let builder := builder.WriteString "ORDER BY "
          match stmt.Schema with
          | some s =>
            match s.PrioritizedPrimaryField with
            | some field => (builder.WriteQuoted field.DBName).WriteString " "
            | none =>
              ((builder.WriteString "(SELECT NULL FROM ").WriteString DummyTableName).WriteString ")"
          | none =>
            ((builder.WriteString "(SELECT NULL FROM ").WriteString DummyTableName).WriteString ")"
        else builder
      | .Other _ => builder
    let builder :=
      if offset > 0 then
        ((builder.WriteString " OFFSET ").WriteString (Itoa offset)).WriteString " ROWS"
      else builder
    if limit > 0 then
      ((builder.WriteString " FETCH NEXT ").WriteString (Itoa limit)).WriteString " ROWS ONLY"
    else builder
  | _ => builder

/-! ## `RewriteWhere` -/

/-- The test `v, ok := expr.(clause.OrConditions); !ok || len(v.Exprs) > 1` that
ends the first loop of `RewriteWhere`. -/
def endsScan : Expression → Bool
  | .OrConditions Exprs => decide (Exprs.length > 1)
  | _ => true

/-- The assignment
`where.Exprs[0], where.Exprs[idx] = where.Exprs[idx], where.Exprs[0]`. -/
def swapWithFirst (Exprs : List Expression) (idx : Nat) : List Expression :=
  match Exprs[0]?, Exprs[idx]? with
  | some first, some other => (Exprs.set 0 other).set idx first
  | _, _ => Exprs

/-- The first loop of `RewriteWhere`, at index `idx` with `rest` still to be
visited: the list `where.Exprs` after the loop. -/
def switchPosition (Exprs : List Expression) : Nat → List Expression → List Expression
  | _, [] => Exprs
  | idx, expr :: rest =>
    if endsScan expr then
      if idx ≠ 0 then swapWithFirst Exprs idx else Exprs
    else switchPosition Exprs (idx + 1) rest

/-- The test `v, ok := expr.(clause.OrConditions); ok && len(v.Exprs) == 1`
that selects the joiner. -/
def isSingleOr : Expression → Bool
  | .OrConditions Exprs => decide (Exprs.length = 1)
  | _ => false

/-- The two lines `sql := strings.ToLower(e.SQL)` and
`strings.Contains(sql, "and") || strings.Contains(sql, "or")`. -/
def mentionsAndOr (SQL : String) : Bool :=
  let sql := ToLower SQL
  Contains sql "and" || Contains sql "or"

/-- The type switch of the second loop: the value of `wrapInParentheses` after
it, given the value before it. -/
def wrapSwitch (wrapInParentheses : Bool) : Expression → Bool
  | .OrConditions Exprs =>
    if Exprs.length = 1 then
      match Exprs[0]? with
      | some (Expression.Expr SQL _) => mentionsAndOr SQL
      | _ => wrapInParentheses
    else wrapInParentheses
  | .AndConditions Exprs =>
    if Exprs.length = 1 then
      match Exprs[0]? with
      | some (Expression.Expr SQL _) => mentionsAndOr SQL
      | _ => wrapInParentheses
    else wrapInParentheses
  | .Expr SQL _ => mentionsAndOr SQL
  | _ => wrapInParentheses

/-- The variables that live across the iterations of the second loop. -/
structure LoopState where
  wrapInParentheses : Bool
  builder : Builder

/-- The branch `else` of `if wrapInParentheses`: the dialect's IN builder for a
`clause.IN` whose first value is a `[]interface{}` of more than one member, the
expression's own `Build` otherwise. `e.Values[0]` panics on an empty list. -/
def buildPlain (expr : Expression) (builder : Builder) : Except Panic Builder :=
  match expr with
  | .IN Column Values =>
    match Values with
    | [] => .error .indexOutOfRange
    | .slice values :: _ =>
      if values.length > 1 then .ok (builder.write (.BuildIN Column Values))
      else .ok (builder.write (.Build expr))
    | .other _ :: _ => .ok (builder.write (.Build expr))
  | _ => .ok (builder.write (.Build expr))

/-- One iteration of the second loop of `RewriteWhere`, for the expression
`expr` at index `idx` of a list of `n` expressions. -/
def whereBody (n idx : Nat) (expr : Expression) (st : LoopState) : Except Panic LoopState :=
  let builder :=
    if idx > 0 then
      if isSingleOr expr then st.builder.WriteString " OR "
      else st.builder.WriteString " AND "
    else st.builder
  let wrapInParentheses :=
    if n > 1 then wrapSwitch st.wrapInParentheses expr else st.wrapInParentheses
  if wrapInParentheses then
    .ok ⟨false, ((builder.WriteString "(").write (.Build expr)).WriteString ")"⟩
  else
    match buildPlain expr builder with
    | .ok builder => .ok ⟨wrapInParentheses, builder⟩
    | .error p => .error p

/-- The second loop of `RewriteWhere` from index `idx` on. -/
def whereLoop (n : Nat) : Nat → List Expression → LoopState → Except Panic LoopState
  | _, [], st => .ok st
  | idx, expr :: rest, st =>
    match whereBody n idx expr st with
    | .ok st => whereLoop n (idx + 1) rest st
    | .error p => .error p

/-- The method `Dialector.RewriteWhere`. The result is the clause as the caller
sees it afterwards (the list of a `clause.Where` shares its backing array with
the caller's, so the exchange of the first loop is visible) and the builder, or
the panic that ended the call. -/
def RewriteWhere (c : Clause) (builder : Builder) : Clause × Except Panic Builder :=
  match c.Expression with
  | .Where Exprs =>
    let builder := builder.WriteString " WHERE "
    let Exprs := switchPosition Exprs 0 Exprs
    (⟨c.Name, .Where Exprs⟩,
      match whereLoop Exprs.length 0 Exprs ⟨false, builder⟩ with
      | .ok st => .ok st.builder
      | .error p => .error p)
  | _ => (c, .ok builder)

/-! ## `Raw` -/

/-- Regular expressions, as far as the pattern of `raw.go` uses the syntax: a
literal character, a character class given by its ranges, one-or-more (greedy)
and concatenation. None of them matches the empty text. -/
inductive Regexp where
  | lit (c : Char)
  | cls (ranges : List (Char × Char))
  | plus (r : Regexp)
  | cat (r s : Regexp)

/-- Membership of a character in a class. -/
def inClass (ranges : List (Char × Char)) (c : Char) : Bool :=
  ranges.any fun lohi => decide (lohi.1 ≤ c) && decide (c ≤ lohi.2)

/-- Zero or more greedy repetitions of a matcher `m`: the texts left after each
possible number of repetitions, the longest match first. A repetition that
consumes nothing is not taken; `fuel` bounds the number of repetitions. -/
def repeatGreedy (m : List Char → List (List Char)) : Nat → List Char → List (List Char)
  | 0, s => [s]
  | fuel + 1, s =>
    ((m s).filter fun t => decide (t.length < s.length)).flatMap (repeatGreedy m fuel) ++ [s]

/-- All matches of a regular expression at the start of `s`, each given by the
text left after it, in the order of preference of Go's `regexp` (leftmost-first:
the first entry is the match the library reports). -/
def Regexp.run : Regexp → List Char → List (List Char)
  | .lit c, s =>
    match s with
    | x :: t => if x = c then [t] else []
    | [] => []
  | .cls ranges, s =>
    match s with
    | x :: t => if inClass ranges x then [t] else []
    | [] => []
  | .plus r, s => (run r s).flatMap (repeatGreedy (run r) s.length)
  | .cat r₁ r₂, s => (run r₁ s).flatMap (run r₂)

/-- The backtick character. -/
def backtick : Char := Char.ofNat 96

/-- The double quote character. -/
def dquote : Char := Char.ofNat 34

/-- The ranges of the class `[a-zA-Z0-9_]`. -/
def identRanges : List (Char × Char) :=
  [('a', 'z'), ('A', 'Z'), ('0', '9'), ('_', '_')]

/-- The variable `reg` of `raw.go`: the compiled pattern
"`[a-zA-Z0-9_]+`". -/
def reg : Regexp :=
  .cat (.lit backtick) (.cat (.plus (.cls identRanges)) (.lit backtick))

/-- The scan of `Regexp.ReplaceAllStringFunc`: from left to right, the leftmost
match starting at the current position is replaced by `repl` of the matched
text and the scan goes on behind it; where no match starts, the character is
copied. `skip` counts the characters of the last match still to be passed. -/
def replaceAll (re : Regexp) (repl : List Char → List Char) : Nat → List Char → List Char
  | _, [] => []
  | skip + 1, _ :: s => replaceAll re repl skip s
  | 0, c :: s =>
    match (re.run (c :: s)).head? with
    | some rest =>
      if rest.length < (c :: s).length then
        let width := (c :: s).length - rest.length
        repl ((c :: s).take width) ++ replaceAll re repl (width - 1) s
      else c :: replaceAll re repl 0 s
    | none => c :: replaceAll re repl 0 s

/-- The method `Regexp.ReplaceAllStringFunc`. -/
def ReplaceAllStringFunc (re : Regexp) (src : String) (repl : String → String) : String :=
  ⟨replaceAll re (fun m => (repl ⟨m⟩).data) 0 src.data⟩

/-- The function `Raw` of `raw.go`, as the text of `db.Statement.SQL` after the
call in terms of the text before it. -/
def Raw (sql : String) : String :=
  if Contains sql "`" then
    ReplaceAllStringFunc reg sql fun s => "\"" ++ ToUpper (Trim s "`") ++ "\""
  else sql

/-! ## The configuration and the dialector -/

/-- A connection pool (`gorm.ConnPool`), kept as a label. -/
structure ConnPool where
  name : String
  deriving DecidableEq

/-- The struct `Config`. `DefaultStringSize` is a `uint`, that is a number below
`2 ^ 64`; `DefaultDatetimePrecision` is a `*int`, nil or the address of a
number; `Conn` is an interface value that may be nil. -/
structure Config where
  DriverName : String
  DSN : String
  Conn : Option ConnPool
  SkipInitializeWithVersion : Bool
  DefaultStringSize : Nat
  DefaultDatetimePrecision : Option Int
  DisableDatetimePrecision : Bool
  DontSupportRenameIndex : Bool
  DontSupportRenameColumn : Bool
  DontSupportForShareClause : Bool
  deriving DecidableEq

/-- The struct `Dialector`: it embeds a `*Config`, which `Open` and `New` always
set, so that the methods, although they receive the dialector by value, read and
write the one configuration behind the pointer. The embedding keeps that
configuration as the state of the dialector and lets each method that writes to
it return the dialector afterwards. -/
structure Dialector where
  Config : Config
  deriving DecidableEq

/-- The function `Open`. -/
def Open (dsn : String) : Dialector :=
  ⟨⟨"", dsn, none, false, 0, none, false, false, false, false⟩⟩

/-- The function `New`. -/
def New (config : Config) : Dialector :=
  ⟨config⟩

/-- The part of `gorm.Config` that `Apply` touches, the field `NowFunc`: nil, a
function supplied by the user (kept as a label), or the function that `Apply`
installs, which rounds the local time to `round` nanoseconds. -/
inductive NowFunc where
  | custom (name : String)
  | rounded (round : Int)
  deriving DecidableEq

/-- The struct `gorm.Config`, as far as the dialect touches it. -/
structure GormConfig where
  NowFunc : Option NowFunc
  deriving DecidableEq

/-- The expression `time.Duration(math.Pow10(n))`. `math.Pow10(n)` is the
floating-point power of ten: for `n < 0` a value that is at least 0 and less
than 1, which the conversion to the integer type `time.Duration` truncates to 0;
for `0 ≤ n ≤ 18` exactly `10 ^ n`, which fits the 64 bits of a `Duration`; for
`n ≥ 19` a value outside the range of a `Duration`, whose conversion Go leaves to
the implementation: `overflow n` stands for what the platform gives. -/
def pow10Duration (overflow : Int → Int) (n : Int) : Int :=
  if n < 0 then 0
  else if n ≤ 18 then 10 ^ n.toNat
  else overflow n

/-- The constant `time.Second`, in nanoseconds. -/
def Second : Int := 1000000000

/-- The method `Dialector.Apply`: the dialector afterwards and the `gorm.Config`
afterwards, or the panic of the integer division by zero. The returned `error`
is always nil. -/
def Apply (overflow : Int → Int) (d : Dialector) (config : GormConfig) :
    Dialector × Except Panic GormConfig :=
  match config.NowFunc with
  | none =>
    let defaultDatetimePrecision : Int :=
      match d.Config.DefaultDatetimePrecision with
      | none => 3
      | some p => p
    let d : Dialector :=
      match d.Config.DefaultDatetimePrecision with
      | none =>
        ⟨⟨d.Config.DriverName, d.Config.DSN, d.Config.Conn, d.Config.SkipInitializeWithVersion,
          d.Config.DefaultStringSize, some defaultDatetimePrecision,
          d.Config.DisableDatetimePrecision, d.Config.DontSupportRenameIndex,
          d.Config.DontSupportRenameColumn, d.Config.DontSupportForShareClause⟩⟩
      | some _ => d
    let divisor := pow10Duration overflow defaultDatetimePrecision
    if divisor = 0 then (d, .error .divideByZero)
    else (d, .ok ⟨some (.rounded (Int.tdiv Second divisor))⟩)
  | some _ => (d, .ok config)

/-- The part of `gorm.DB` that `Initialize` touches: the connection pool, the
names of the registered callbacks and the keys of the map `ClauseBuilders`. -/
structure DB where
  ConnPool : Option ConnPool
  Callbacks : List String
  ClauseBuilders : List String
  deriving DecidableEq

/-- The method `Dialector.ClauseBuilders`, as the keys of the map it returns. -/
def ClauseBuilders : List String :=
  ["LIMIT", "WHERE"]

/-- The method `Dialector.Initialize`: the dialector and the `gorm.DB`
afterwards and the returned error. The calls into other packages are
parameters: `registerDefaultCallbacks` for `callbacks.RegisterDefaultCallbacks`,
`sqlOpen` for `sql.Open` and `replaceCreate` for the replacement of the
`gorm:create` callback. -/
def Initialize (registerDefaultCallbacks : DB → DB)
    (sqlOpen : String → String → Except String ConnPool)
    (replaceCreate : DB → Except String DB) (d : Dialector) (db : DB) :
    Dialector × DB × Option String :=
  let d : Dialector :=
    ⟨⟨d.Config.DriverName, d.Config.DSN, d.Config.Conn, d.Config.SkipInitializeWithVersion,
      1024, d.Config.DefaultDatetimePrecision, d.Config.DisableDatetimePrecision,
      d.Config.DontSupportRenameIndex, d.Config.DontSupportRenameColumn,
      d.Config.DontSupportForShareClause⟩⟩
  let db := registerDefaultCallbacks db
  let d : Dialector :=
    if d.Config.DriverName = "" then
      ⟨⟨"dm", d.Config.DSN, d.Config.Conn, d.Config.SkipInitializeWithVersion,
        d.Config.DefaultStringSize, d.Config.DefaultDatetimePrecision,
        d.Config.DisableDatetimePrecision, d.Config.DontSupportRenameIndex,
        d.Config.DontSupportRenameColumn, d.Config.DontSupportForShareClause⟩⟩
    else d
  let opened : Except String DB :=
    match d.Config.Conn with
    | some conn => .ok ⟨some conn, db.Callbacks, db.ClauseBuilders⟩
    | none =>
      match sqlOpen d.Config.DriverName ("dm://" ++ d.Config.DSN) with
      | .ok conn => .ok ⟨some conn, db.Callbacks, db.ClauseBuilders⟩
      | .error err => .error err
  match opened with
  | .error err => (d, ⟨none, db.Callbacks, db.ClauseBuilders⟩, some err)
  | .ok db =>
    match replaceCreate db with
    | .error err => (d, db, some err)
    | .ok db =>
      (d, ⟨db.ConnPool, db.Callbacks,
        ClauseBuilders.foldl (fun keys k => if k ∈ keys then keys else keys ++ [k])
          db.ClauseBuilders⟩, none)

/-! ## `DataTypeOf` -/

/-- The conversion `int(u)` of a `uint`: its 64 bits read as a signed number. -/
def intOfUint (u : Nat) : Int :=
  if u % 2 ^ 64 < 2 ^ 63 then ((u % 2 ^ 64 : Nat) : Int)
  else ((u % 2 ^ 64 : Nat) : Int) - 2 ^ 64

/-- The index expression `field.TagSettings[key]` on a map of strings: the
value stored under the key, the empty string when there is none. -/
def tagSetting (settings : List (String × String)) (key : String) : String :=
  match settings.lookup key with
  | some value => value
  | none => ""

/-- The value of `int(math.Pow(2, 24))`. -/
def pow2_24 : Int := 16777216

/-- The variable `size` of the case `schema.String` of `DataTypeOf` when the
thresholds are tested: the size of the field, replaced when it is 0 by the string
size that the configuration gives as default or, when there is none, by 191 for
a primary key, a field with a default value or a field with an index. -/
def stringSize (d : Dialector) (field : Field) : Int :=
  let size := field.Size
  let defaultSize := d.Config.DefaultStringSize
  if size = 0 then
    if defaultSize > 0 then intOfUint defaultSize
    else
      let hasIndex :=
        tagSetting field.TagSettings "INDEX" ≠ "" ∨ tagSetting field.TagSettings "UNIQUE" ≠ ""
      if field.PrimaryKey = true ∨ field.HasDefaultValue = true ∨ hasIndex then 191
      else size
  else size

/-- The method `Dialector.DataTypeOf`: the field behind the pointer `field`
after the call and the returned column type, or the panic of reading through the
nil pointer `d.DefaultDatetimePrecision`. The constants of `schema.DataType` are
the strings `bool`, `int`, `uint`, `float`, `string`, `time` and `bytes`. -/
def DataTypeOf (d : Dialector) (field : Field) : Except Panic (Field × String) :=
  if field.DataType = "bool" then .ok (field, "boolean")
  else if field.DataType = "int" ∨ field.DataType = "uint" then
    let sqlType :=
      if field.Size ≤ 8 then "tinyint"
      else if field.Size ≤ 16 then "smallint"
      else if field.Size ≤ 24 then "mediumint"
      else if field.Size ≤ 32 then "int"
      else "bigint"
    let sqlType := if field.DataType = "uint" then sqlType ++ " unsigned" else sqlType
    let sqlType := if field.AutoIncrement then sqlType ++ " AUTO_INCREMENT" else sqlType
    .ok (field, sqlType)
  else if field.DataType = "float" then
    if field.Precision > 0 then
      .ok (field, "decimal(" ++ Itoa field.Precision ++ ", " ++ Itoa field.Scale ++ ")")
    else if field.Size ≤ 32 then .ok (field, "float")
    else .ok (field, "double")
  else if field.DataType = "string" then
    let size := stringSize d field
    if size ≥ 65536 ∧ size ≤ pow2_24 then .ok (field, "mediumtext")
    else if size > pow2_24 ∨ size ≤ 0 then .ok (field, "longtext")
    else .ok (field, "varchar(" ++ Itoa size ++ ")")
  else if field.DataType = "time" then
    let assigned : Except Panic Field :=
      if d.Config.DisableDatetimePrecision = false ∧ field.Precision = 0 then
        match d.Config.DefaultDatetimePrecision with
        | some p =>
          .ok ⟨field.DBName, field.DataType, field.Size, p, field.Scale, field.PrimaryKey,
            field.AutoIncrement, field.NotNull, field.HasDefaultValue, field.TagSettings⟩
        | none => .error .nilDereference
      else .ok field
    match assigned with
    | .error p => .error p
    | .ok field =>
      let precision := if field.Precision > 0 then "(" ++ Itoa field.Precision ++ ")" else ""
      if field.NotNull = true ∨ field.PrimaryKey = true then .ok (field, "datetime" ++ precision)
      else .ok (field, "datetime" ++ precision ++ " NULL")
  else if field.DataType = "bytes" then
    if field.Size > 0 ∧ field.Size < 65536 then
      .ok (field, "varbinary(" ++ Itoa field.Size ++ ")")
    else if field.Size ≥ 65536 ∧ field.Size ≤ pow2_24 then .ok (field, "mediumblob")
    else .ok (field, "longblob")
  else .ok (field, field.DataType)

/-! ## Vocabulary of the statements -/

/-- How the calls recorded in a `Write` turn into text: the renderings of the
calls that the dialect leaves to the ORM or to its `clauses` package. -/
structure Renderer where
  quoted : String → String
  build : Expression → String
  buildIN : String → List Value → String

/-- The text of one write. -/
def Write.text (r : Renderer) : Write → String
  | .WriteString s => s
  | .WriteQuoted field => r.quoted field
  | .Build e => r.build e
  | .BuildIN Column Values => r.buildIN Column Values

/-- The text of a sequence of writes. -/
def render (r : Renderer) : List Write → String
  | [] => ""
  | w :: ws => w.text r ++ render r ws

/-- An `OrConditions` with no child or one child. -/
def atMostOneChildOr : Expression → Bool
  | .OrConditions [] => true
  | .OrConditions [_] => true
  | _ => false

/-- The joiner written before an expression that is not the first. -/
def joiner (e : Expression) : String :=
  if isSingleOr e then " OR " else " AND "

/-- The SQL text the parenthesization heuristic looks at: that of a raw-text
expression, or of the raw-text expression that is the only child of an
`OrConditions` or `AndConditions`. -/
def rawText : Expression → Option String
  | .Expr SQL _ => some SQL
  | .OrConditions [.Expr SQL _] => some SQL
  | .AndConditions [.Expr SQL _] => some SQL
  | _ => none

/-- The heuristic: the lower-cased text has `and` or `or` as a substring. -/
def wrapped (e : Expression) : Bool :=
  match rawText e with
  | some SQL =>
    decide ("and".data <:+: (ToLower SQL).data) || decide ("or".data <:+: (ToLower SQL).data)
  | none => false

/-- An IN predicate whose first value is a list of more than one member. -/
def usesINBuilder : Expression → Bool
  | .IN _ (.slice values :: _) => decide (1 < values.length)
  | _ => false

/-- What is written for an expression that is not wrapped. -/
def plain : Expression → List Write
  | .IN Column Values =>
    if usesINBuilder (.IN Column Values) then [.BuildIN Column Values]
    else [.Build (.IN Column Values)]
  | e => [.Build e]

/-- What is written for an expression that is wrapped. -/
def inParentheses (e : Expression) : List Write :=
  [.WriteString "(", .Build e, .WriteString ")"]

/-- What is written for an expression in a list of `n` expressions. -/
def rendered (n : Nat) (e : Expression) : List Write :=
  if 1 < n ∧ wrapped e = true then inParentheses e else plain e

/-- The prioritized primary field of a statement, if its schema exposes one. -/
def primaryField (stmt : Statement) : Option Field :=
  match stmt.Schema with
  | some s => s.PrioritizedPrimaryField
  | none => none

/-- The text of the ORDER BY that `RewriteLimit` injects into a statement. -/
def injectedOrderBy (r : Renderer) (stmt : Statement) : String :=
  if "ORDER BY" ∈ stmt.Clauses then ""
  else
    match primaryField stmt with
    | some field => "ORDER BY " ++ render r (QuoteTo [] field.DBName) ++ " "
    | none => "ORDER BY (SELECT NULL FROM DUAL)"

/-- The text of the OFFSET and FETCH segments. -/
def pagination (limit offset : Int) : String :=
  (if 0 < offset then " OFFSET " ++ Itoa offset ++ " ROWS" else "") ++
    (if 0 < limit then " FETCH NEXT " ++ Itoa limit ++ " ROWS ONLY" else "")

/-- A character of `[A-Za-z0-9_]`. -/
def isIdentChar (c : Char) : Bool :=
  c.isAlphanum || c == '_'

/-- The texts left after each possible number of leading characters that
satisfy `p`, the longest run first. -/
def afterRuns (p : Char → Bool) : List Char → List (List Char)
  | [] => [[]]
  | c :: t => if p c then afterRuns p t ++ [c :: t] else [c :: t]

/-- The text behind the token that starts a character list, if one does: a
backtick, one or more characters of `[A-Za-z0-9_]`, a backtick. -/
def tokenRest : List Char → Option (List Char)
  | [] => none
  | c :: l =>
    if c = backtick ∧ l.takeWhile isIdentChar ≠ [] then
      match l.dropWhile isIdentChar with
      | z :: rest => if z = backtick then some rest else none
      | [] => none
    else none

/-- The replacement function that `Raw` passes to `ReplaceAllStringFunc`, on
character lists. -/
def quoteUpper (m : List Char) : List Char :=
  ("\"" ++ ToUpper (Trim ⟨m⟩ "`") ++ "\"").data

/-- The scan that `Raw` makes of a text. -/
def rawScan (s : List Char) : List Char :=
  replaceAll reg quoteUpper 0 s

/-- The reference description of the post-processor: `Rewritten s out` holds
when `out` is `s` with each token (a backtick, one or more characters of
`[A-Za-z0-9_]`, a backtick), taken from the left and without overlap, replaced
by a double quote, the characters upper-cased and a double quote, and with
every other character copied in place. -/
inductive Rewritten : List Char → List Char → Prop where
  | done : Rewritten [] []
  | token (id rest out : List Char) : id ≠ [] → (∀ c ∈ id, isIdentChar c = true) →
      Rewritten rest out →
      Rewritten (backtick :: id ++ backtick :: rest)
        (dquote :: id.map Char.toUpper ++ dquote :: out)
  | copy (c : Char) (s out : List Char) :
      (¬ ∃ id rest, id ≠ [] ∧ (∀ x ∈ id, isIdentChar x = true) ∧
        c :: s = backtick :: id ++ backtick :: rest) →
      Rewritten s out → Rewritten (c :: s) (c :: out)

/-- The base column type of an integer field of the given size. -/
def intBase (size : Int) : String :=
  if size ≤ 8 then "tinyint"
  else if 8 < size ∧ size ≤ 16 then "smallint"
  else if 16 < size ∧ size ≤ 24 then "mediumint"
  else if 24 < size ∧ size ≤ 32 then "int"
  else "bigint"

/-- The place of an integer column type in the order
tinyint < smallint < mediumint < int < bigint. -/
def intRank (sqlType : String) : Nat :=
  if sqlType = "tinyint" then 0
  else if sqlType = "smallint" then 1
  else if sqlType = "mediumint" then 2
  else if sqlType = "int" then 3
  else 4

/-- A field has an index when its `INDEX` or its `UNIQUE` tag is set. -/
def hasIndex (field : Field) : Bool :=
  decide (tagSetting field.TagSettings "INDEX" ≠ "") ||
    decide (tagSetting field.TagSettings "UNIQUE" ≠ "")

/-- The effective size of a string field: the explicit size if it is not zero,
else the configured default string size if that is positive, else 191 for a
primary key, a field with a default value or a field with an index, else 0. -/
def effectiveStringSize (d : Dialector) (field : Field) : Int :=
  if field.Size ≠ 0 then field.Size
  else if 0 < d.Config.DefaultStringSize then (d.Config.DefaultStringSize : Int)
  else if field.PrimaryKey = true ∨ field.HasDefaultValue = true ∨ hasIndex field = true then 191
  else 0

/-- The effective precision of a time field for a configured default: the
precision of the field, replaced by the default when it is 0 and the toggle
`DisableDatetimePrecision` is off. -/
def effectivePrecision (d : Dialector) (field : Field) (configured : Int) : Int :=
  if field.Precision = 0 ∧ d.Config.DisableDatetimePrecision = false then configured
  else field.Precision

/-- The reference quoting of a name: the name split on the dot, each segment
between two double quotes, the quoted segments joined by one dot. -/
def quotedName (str : String) : List Char :=
  List.intercalate [Char.ofNat 46]
    ((str.data.splitOn (Char.ofNat 46)).map fun seg => dquote :: seg ++ [dquote])

/-! # Properties -/

/-! ## The builder -/

theorem Builder.writeAll_append (b : Builder) (xs ys : List Write) :
    b.writeAll (xs ++ ys) = (b.writeAll xs).writeAll ys := by
  induction xs generalizing b with
  | nil => rfl
  | cons x xs ih => exact ih (b.write x)

theorem Builder.writeAll_cons (b : Builder) (w : Write) (ws : List Write) :
    b.writeAll (w :: ws) = (b.write w).writeAll ws := rfl

theorem Builder.written_write (b : Builder) (w : Write) :
    (b.write w).written = b.written ++ [w] := by
  cases b <;> rfl

theorem Builder.written_writeAll (b : Builder) (ws : List Write) :
    (b.writeAll ws).written = b.written ++ ws := by
  induction ws generalizing b with
  | nil => simp [Builder.writeAll]
  | cons w ws ih => simp [Builder.writeAll, ih, Builder.written_write]

theorem containsChars_iff (s sub : List Char) :
    containsChars s sub = true ↔ sub <:+: s := by
  induction s with
  | nil => cases sub <;> simp [containsChars]
  | cons c s ih =>
    simp only [containsChars, Bool.or_eq_true, ih, List.infix_cons_iff,
      List.isPrefixOf_iff_prefix]

theorem mentionsAndOr_eq (SQL : String) :
    mentionsAndOr SQL =
      (decide ("and".data <:+: (ToLower SQL).data) || decide ("or".data <:+: (ToLower SQL).data)) := by
  simp only [mentionsAndOr, Contains]
  rw [Bool.eq_iff_iff]
  simp only [Bool.or_eq_true, containsChars_iff, decide_eq_true_eq]

theorem wrapSwitch_false (e : Expression) : wrapSwitch false e = wrapped e := by
  cases e with
  | OrConditions Exprs =>
    match Exprs with
    | [] => rfl
    | [x] => cases x <;> simp [wrapSwitch, wrapped, rawText, mentionsAndOr_eq]
    | _ :: _ :: _ => simp [wrapSwitch, wrapped, rawText]
  | AndConditions Exprs =>
    match Exprs with
    | [] => rfl
    | [x] => cases x <;> simp [wrapSwitch, wrapped, rawText, mentionsAndOr_eq]
    | _ :: _ :: _ => simp [wrapSwitch, wrapped, rawText]
  | Expr SQL Vars => simp [wrapSwitch, wrapped, rawText, mentionsAndOr_eq]
  | IN Column Values => rfl
  | Other name => rfl

theorem buildPlain_ok (e : Expression) (b : Builder) (hIN : ∀ Column, e ≠ .IN Column []) :
    buildPlain e b = .ok (b.writeAll (plain e)) := by
  cases e with
  | IN Column Values =>
    match Values with
    | [] => exact absurd rfl (hIN Column)
    | .slice values :: rest =>
      by_cases h : 1 < values.length
      · simp [buildPlain, plain, usesINBuilder, h, Builder.writeAll]
      · simp [buildPlain, plain, usesINBuilder, h, Builder.writeAll]
    | .other _ :: rest => simp [buildPlain, plain, usesINBuilder, Builder.writeAll]
  | _ => rfl

theorem whereBody_ok (n idx : Nat) (e : Expression) (b : Builder)
    (hIN : ∀ Column, e ≠ .IN Column []) :
    whereBody n idx e ⟨false, b⟩ =
      .ok ⟨false, ((if 0 < idx then b.write (.WriteString (joiner e)) else b).writeAll
        (rendered n e))⟩ := by
  have hj : (if idx > 0 then
        if isSingleOr e = true then b.WriteString " OR " else b.WriteString " AND "
      else b) = (if 0 < idx then b.write (.WriteString (joiner e)) else b) := by
    by_cases h : 0 < idx
    · by_cases hs : isSingleOr e = true <;> simp [h, hs, joiner, Builder.WriteString]
    · simp [h]
  simp only [whereBody, hj]
  by_cases hn : 1 < n
  · simp only [gt_iff_lt, hn, if_true, wrapSwitch_false]
    by_cases hw : wrapped e = true
    · simp [hw, rendered, inParentheses, hn, Builder.writeAll, Builder.WriteString]
    · simp only [hw, rendered, hn, and_false, if_false]
      rw [buildPlain_ok _ _ hIN]
      simp at hw
      simp [hw]
  · simp only [gt_iff_lt, hn, if_false, rendered, false_and]
    rw [buildPlain_ok _ _ hIN]
    simp

theorem whereLoop_ok (n : Nat) (rest : List Expression) :
    ∀ (idx : Nat) (b : Builder), 0 < idx → (∀ Column, Expression.IN Column [] ∉ rest) →
      whereLoop n idx rest ⟨false, b⟩ =
        .ok ⟨false, b.writeAll
          (rest.flatMap fun e => Write.WriteString (joiner e) :: rendered n e)⟩ := by
  induction rest with
  | nil => intro idx b _ _; rfl
  | cons e rest ih =>
    intro idx b hidx hIN
    have he : ∀ Column, e ≠ .IN Column [] := fun c h => hIN c (h ▸ List.mem_cons_self _ _)
    have hrest : ∀ Column, Expression.IN Column [] ∉ rest :=
      fun c h => hIN c (List.mem_cons_of_mem _ h)
    simp only [whereLoop, whereBody_ok n idx e b he, hidx, if_true]
    rw [ih (idx + 1) _ (Nat.succ_pos idx) hrest]
    rw [List.flatMap_cons, List.cons_append, Builder.writeAll_cons, Builder.writeAll_append]

theorem whereLoop_zero (n : Nat) (Exprs : List Expression) (b : Builder)
    (hIN : ∀ Column, Expression.IN Column [] ∉ Exprs) :
    whereLoop n 0 Exprs ⟨false, b⟩ =
      .ok ⟨false, b.writeAll ((Exprs.take 1).flatMap (rendered n) ++
        (Exprs.drop 1).flatMap fun e => Write.WriteString (joiner e) :: rendered n e)⟩ := by
  cases Exprs with
  | nil => rfl
  | cons e rest =>
    have he : ∀ Column, e ≠ .IN Column [] := fun c h => hIN c (h ▸ List.mem_cons_self _ _)
    have hrest : ∀ Column, Expression.IN Column [] ∉ rest :=
      fun c h => hIN c (List.mem_cons_of_mem _ h)
    simp only [whereLoop, whereBody_ok n 0 e b he, Nat.lt_irrefl, if_false]
    rw [whereLoop_ok n rest 1 _ Nat.one_pos hrest]
    simp only [List.take_succ_cons, List.take_zero, List.flatMap_cons, List.flatMap_nil,
      List.append_nil, List.drop_succ_cons, List.drop_zero, Builder.writeAll_append]

theorem endsScan_eq (e : Expression) : endsScan e = !atMostOneChildOr e := by
  cases e with
  | OrConditions Exprs =>
    match Exprs with
    | [] => rfl
    | [_] => rfl
    | _ :: _ :: _ => simp [endsScan, atMostOneChildOr]
  | _ => rfl

theorem switchPosition_eq (all : List Expression) (rest : List Expression) :
    ∀ idx : Nat, switchPosition all idx rest =
      if rest.findIdx endsScan < rest.length then
        if idx + rest.findIdx endsScan ≠ 0 then swapWithFirst all (idx + rest.findIdx endsScan)
        else all
      else all := by
  induction rest with
  | nil => intro idx; simp [switchPosition]
  | cons e rest ih =>
    intro idx
    by_cases he : endsScan e = true
    · simp [switchPosition, List.findIdx_cons, he]
    · simp only [switchPosition, he, List.findIdx_cons, ih (idx + 1)]
      simp only [Bool.false_eq_true, if_false, cond_false, List.length_cons,
        Nat.add_lt_add_iff_right]
      have : idx + 1 + List.findIdx endsScan rest = idx + (List.findIdx endsScan rest + 1) := by
        omega
      rw [this]

theorem switchPosition_zero (Exprs : List Expression) :
    switchPosition Exprs 0 Exprs =
      if 0 < Exprs.findIdx endsScan ∧ Exprs.findIdx endsScan < Exprs.length then
        swapWithFirst Exprs (Exprs.findIdx endsScan)
      else Exprs := by
  rw [switchPosition_eq]
  by_cases h1 : Exprs.findIdx endsScan < Exprs.length
  · by_cases h2 : Exprs.findIdx endsScan = 0
    · simp [h1, h2]
    · simp [h1, h2, Nat.pos_of_ne_zero h2]
  · simp [h1]

theorem swapWithFirst_getElem? (Exprs : List Expression) (i j : Nat)
    (h0 : 0 < i) (hi : i < Exprs.length) :
    (swapWithFirst Exprs i)[j]? =
      if j = 0 then Exprs[i]? else if j = i then Exprs[0]? else Exprs[j]? := by
  have hz : 0 < Exprs.length := Nat.lt_trans h0 hi
  simp only [swapWithFirst, List.getElem?_eq_getElem hz, List.getElem?_eq_getElem hi]
  rw [List.getElem?_set]
  by_cases hj0 : j = 0
  · subst hj0
    have : i ≠ 0 := Nat.ne_of_gt h0
    simp [this, hz]
  · by_cases hji : j = i
    · subst hji
      simp [hj0, hi]
    · have h1 : i ≠ j := fun h => hji h.symm
      have h2 : 0 ≠ j := fun h => hj0 h.symm
      simp [h1, h2, hj0, hji]

theorem mem_swapWithFirst (Exprs : List Expression) (i : Nat) (e : Expression)
    (h : e ∈ swapWithFirst Exprs i) : e ∈ Exprs := by
  unfold swapWithFirst at h
  split at h
  · rename_i first other h0 hi
    rcases List.mem_or_eq_of_mem_set h with h | h
    · rcases List.mem_or_eq_of_mem_set h with h | h
      · exact h
      · exact h ▸ List.mem_iff_getElem?.mpr ⟨_, hi⟩
    · exact h ▸ List.mem_iff_getElem?.mpr ⟨_, h0⟩
  · exact h

theorem mem_switchPosition (Exprs : List Expression) (e : Expression)
    (h : e ∈ switchPosition Exprs 0 Exprs) : e ∈ Exprs := by
  rw [switchPosition_zero] at h
  split at h
  · exact mem_swapWithFirst _ _ _ h
  · exact h

theorem length_swapWithFirst (Exprs : List Expression) (i : Nat) :
    (swapWithFirst Exprs i).length = Exprs.length := by
  unfold swapWithFirst
  split <;> simp

theorem length_switchPosition (Exprs : List Expression) :
    (switchPosition Exprs 0 Exprs).length = Exprs.length := by
  rw [switchPosition_zero]
  split
  · exact length_swapWithFirst _ _
  · rfl

theorem RewriteWhere_eq (Name : String) (Exprs : List Expression) (builder : Builder)
    (hIN : ∀ Column, Expression.IN Column [] ∉ Exprs) :
    RewriteWhere ⟨Name, .Where Exprs⟩ builder =
      (⟨Name, .Where (switchPosition Exprs 0 Exprs)⟩,
        .ok (builder.writeAll (.WriteString " WHERE " ::
          ((switchPosition Exprs 0 Exprs).take 1).flatMap (rendered Exprs.length) ++
          ((switchPosition Exprs 0 Exprs).drop 1).flatMap fun e =>
            Write.WriteString (joiner e) :: rendered Exprs.length e))) := by
  have h : ∀ Column, Expression.IN Column [] ∉ switchPosition Exprs 0 Exprs :=
    fun c hc => hIN c (mem_switchPosition _ _ hc)
  simp only [RewriteWhere, whereLoop_zero _ _ _ h, length_switchPosition]
  rfl

theorem whereBody_flag (n idx : Nat) (e : Expression) (b : Builder) (st : LoopState)
    (h : whereBody n idx e ⟨false, b⟩ = .ok st) : st.wrapInParentheses = false := by
  simp only [whereBody] at h
  generalize (if n > 1 then wrapSwitch false e else false) = w at h
  generalize (if idx > 0 then
    if isSingleOr e = true then b.WriteString " OR " else b.WriteString " AND " else b) = b1 at h
  cases w with
  | true =>
    simp only [if_true, Except.ok.injEq] at h
    rw [← h]
  | false =>
    simp only [Bool.false_eq_true, if_false] at h
    cases hb : buildPlain e b1 with
    | ok b2 =>
      rw [hb] at h
      simp only [Except.ok.injEq] at h
      rw [← h]
    | error p =>
      rw [hb] at h
      cases h

theorem whereLoop_flag (n : Nat) (Exprs : List Expression) :
    ∀ (idx : Nat) (b : Builder) (st : LoopState),
      whereLoop n idx Exprs ⟨false, b⟩ = .ok st → st.wrapInParentheses = false := by
  induction Exprs with
  | nil => intro idx b st h; cases h; rfl
  | cons e rest ih =>
    intro idx b st h
    simp only [whereLoop] at h
    split at h
    · rename_i st1 h1
      have hf := whereBody_flag n idx e b st1 h1
      cases st1 with
      | mk w b1 =>
        simp only at hf
        subst hf
        exact ih _ _ _ h
    · cases h

/-! ## Claims on `RewriteWhere` -/

/-- C1 (as stated, refuted): on the list of a single-child OR group followed by
a raw condition, `RewriteWhere` does not leave the list in its order: the
clause the caller sees afterwards differs from the one passed in. -/
theorem RewriteWhere_single_or_first_reorders :
    (RewriteWhere
        ⟨"WHERE", .Where [.OrConditions [.Expr "a = ?" []], .Expr "b = ?" []]⟩
        (.Other [])).1 ≠
      ⟨"WHERE", .Where [.OrConditions [.Expr "a = ?" []], .Expr "b = ?" []]⟩ := by
  simp [RewriteWhere, switchPosition, endsScan, swapWithFirst]

/-- C1 (amended): on a list of exactly two expressions, the first an
`OrConditions` with exactly one child and the second not an `OrConditions`
(and not an IN predicate without values), `RewriteWhere` exchanges the two, so
that the plain condition comes first, and writes the joiner `" OR "` between
the two rendered expressions. -/
theorem RewriteWhere_single_or_then_plain (Name : String) (child cond : Expression)
    (builder : Builder) (hcond : ∀ Exprs, cond ≠ .OrConditions Exprs)
    (hIN : ∀ Column, cond ≠ .IN Column []) :
    RewriteWhere ⟨Name, .Where [.OrConditions [child], cond]⟩ builder =
      (⟨Name, .Where [cond, .OrConditions [child]]⟩,
        .ok (builder.writeAll (.WriteString " WHERE " ::
          (rendered 2 cond ++ .WriteString " OR " :: rendered 2 (.OrConditions [child]))))) := by
  have hends : endsScan cond = true := by
    cases cond with
    | OrConditions Exprs => exact absurd rfl (hcond Exprs)
    | _ => rfl
  have hmem : ∀ Column, Expression.IN Column [] ∉ [.OrConditions [child], cond] := by
    intro c hc
    simp only [List.mem_cons, List.mem_singleton, List.not_mem_nil, or_false] at hc
    rcases hc with hc | hc
    · cases hc
    · exact hIN c hc.symm
  have hfix : switchPosition [.OrConditions [child], cond] 0 [.OrConditions [child], cond] =
      [cond, .OrConditions [child]] := by
    simp [switchPosition, endsScan, hends, swapWithFirst]
  rw [RewriteWhere_eq _ _ _ hmem, hfix]
  simp [joiner, isSingleOr]

/-- Witness of `RewriteWhere_single_or_then_plain`: the list of `OR (a = ?)`
and `b = ?`. -/
theorem RewriteWhere_single_or_then_plain_witness :
    RewriteWhere ⟨"WHERE", .Where [.OrConditions [.Expr "a = ?" []], .Expr "b = ?" []]⟩
        (.Other []) =
      (⟨"WHERE", .Where [.Expr "b = ?" [], .OrConditions [.Expr "a = ?" []]]⟩,
        .ok (.Other [.WriteString " WHERE ", .Build (.Expr "b = ?" []), .WriteString " OR ",
          .Build (.OrConditions [.Expr "a = ?" []])])) :=
  RewriteWhere_single_or_then_plain "WHERE" (.Expr "a = ?" []) (.Expr "b = ?" []) (.Other [])
    (fun _ h => Expression.noConfusion h) (fun _ h => Expression.noConfusion h)

/-- C2 (as stated, refuted): in the list of `OR (a = ?)`, an `OrConditions`
without children and `b = ?`, the first expression that is not an
`OrConditions` with exactly one child stands at index 1, yet the list after
`RewriteWhere` is not the input with the elements at 0 and 1 exchanged: the
scan passes the childless group and exchanges index 0 with index 2. -/
theorem RewriteWhere_childless_or_not_exchanged :
    List.findIdx (fun e => !isSingleOr e)
        [.OrConditions [.Expr "a = ?" []], .OrConditions [], .Expr "b = ?" []] = 1 ∧
      (RewriteWhere
          ⟨"WHERE", .Where [.OrConditions [.Expr "a = ?" []], .OrConditions [], .Expr "b = ?" []]⟩
          (.Other [])).1 ≠
        ⟨"WHERE", .Where [.OrConditions [], .OrConditions [.Expr "a = ?" []], .Expr "b = ?" []]⟩ ∧
      (RewriteWhere
          ⟨"WHERE", .Where [.OrConditions [.Expr "a = ?" []], .OrConditions [], .Expr "b = ?" []]⟩
          (.Other [])).1 =
        ⟨"WHERE", .Where [.Expr "b = ?" [], .OrConditions [], .OrConditions [.Expr "a = ?" []]]⟩ := by
  refine ⟨by decide, ?_, rfl⟩
  simp [RewriteWhere, switchPosition, endsScan, swapWithFirst]

/-- C2 (amended): let `i` be the index of the first expression that is not an
`OrConditions` with at most one child. If there is one and `i ≠ 0`, the list
after `RewriteWhere` is the input with the elements at `0` and `i` exchanged
and every other position unchanged; otherwise the list is unchanged. -/
theorem RewriteWhere_leading_or_fixup (Name : String) (Exprs : List Expression)
    (builder : Builder) :
    ∃ fixed, (RewriteWhere ⟨Name, .Where Exprs⟩ builder).1 = ⟨Name, .Where fixed⟩ ∧
      if 0 < Exprs.findIdx (fun e => !atMostOneChildOr e) ∧
          Exprs.findIdx (fun e => !atMostOneChildOr e) < Exprs.length then
        ∀ j : Nat, fixed[j]? =
          if j = 0 then Exprs[Exprs.findIdx (fun e => !atMostOneChildOr e)]?
          else if j = Exprs.findIdx (fun e => !atMostOneChildOr e) then Exprs[0]?
          else Exprs[j]?
      else fixed = Exprs := by
  refine ⟨switchPosition Exprs 0 Exprs, rfl, ?_⟩
  have hfun : (fun e => !atMostOneChildOr e) = endsScan := by
    funext e
    exact (endsScan_eq e).symm
  rw [hfun, switchPosition_zero]
  split
  · rename_i h
    intro j
    exact swapWithFirst_getElem? Exprs _ j h.1 h.2
  · rfl

/-- C3: for a list of `n` expressions (none an IN predicate without values),
`RewriteWhere` writes `" WHERE "`, then the first expression of the fixed-up
list as rendered, then each of the `n - 1` further expressions as rendered,
each preceded by its joiner: `" OR "` for an `OrConditions` with exactly one
child, `" AND "` otherwise. -/
theorem RewriteWhere_writes (Name : String) (Exprs : List Expression) (builder : Builder)
    (hIN : ∀ Column, Expression.IN Column [] ∉ Exprs) :
    ∃ fixed, (RewriteWhere ⟨Name, .Where Exprs⟩ builder).1 = ⟨Name, .Where fixed⟩ ∧
      fixed.length = Exprs.length ∧ (fixed.drop 1).length = Exprs.length - 1 ∧
      (RewriteWhere ⟨Name, .Where Exprs⟩ builder).2 =
        .ok (builder.writeAll (.WriteString " WHERE " ::
          (fixed.take 1).flatMap (rendered Exprs.length) ++
          (fixed.drop 1).flatMap fun e =>
            Write.WriteString (if isSingleOr e = true then " OR " else " AND ") ::
              rendered Exprs.length e)) := by
  refine ⟨switchPosition Exprs 0 Exprs, ?_, length_switchPosition Exprs, ?_, ?_⟩
  · rw [RewriteWhere_eq _ _ _ hIN]
  · rw [List.length_drop, length_switchPosition]
  · rw [RewriteWhere_eq _ _ _ hIN]
    rfl

/-- Witness of `RewriteWhere_writes`: three expressions, the second a
single-child OR group. -/
theorem RewriteWhere_writes_witness :
    (RewriteWhere ⟨"WHERE", .Where [.Expr "a = ?" [], .OrConditions [.Other "b"], .Other "c"]⟩
        (.Other [])).2 =
      .ok (.Other [.WriteString " WHERE ", .Build (.Expr "a = ?" []), .WriteString " OR ",
        .Build (.OrConditions [.Other "b"]), .WriteString " AND ", .Build (.Other "c")]) := by
  obtain ⟨fixed, h1, _, _, h2⟩ := RewriteWhere_writes "WHERE"
    [.Expr "a = ?" [], .OrConditions [.Other "b"], .Other "c"] (.Other []) (by simp)
  have hf : fixed = [.Expr "a = ?" [], .OrConditions [.Other "b"], .Other "c"] := by
    have h3 : (RewriteWhere
        ⟨"WHERE", .Where [.Expr "a = ?" [], .OrConditions [.Other "b"], .Other "c"]⟩
        (.Other [])).1 =
        ⟨"WHERE", .Where [.Expr "a = ?" [], .OrConditions [.Other "b"], .Other "c"]⟩ := rfl
    rw [h3] at h1
    cases h1
    rfl
  rw [h2, hf]
  rfl

/-- C4: in a list of more than one expression (none an IN predicate without
values) each expression is written as `(`, its rendering, `)` exactly when it is
wrapped, that is a raw-text expression, or an `OrConditions` or `AndConditions`
whose only child is one, whose lower-cased SQL has `and` or `or` as a substring,
and as its plain rendering otherwise; a list of one expression is written
without parentheses whatever its text; and the flag `wrapInParentheses` is
false again after every iteration of the loop. -/
theorem RewriteWhere_parentheses (Name : String) (builder : Builder) :
    (∀ Exprs : List Expression, 1 < Exprs.length →
      (∀ Column, Expression.IN Column [] ∉ Exprs) →
      ∃ fixed, (RewriteWhere ⟨Name, .Where Exprs⟩ builder).1 = ⟨Name, .Where fixed⟩ ∧
        (RewriteWhere ⟨Name, .Where Exprs⟩ builder).2 =
          .ok (builder.writeAll (.WriteString " WHERE " ::
            (fixed.take 1).flatMap
              (fun e => if wrapped e = true then inParentheses e else plain e) ++
            (fixed.drop 1).flatMap fun e =>
              Write.WriteString (joiner e) ::
                if wrapped e = true then inParentheses e else plain e))) ∧
    (∀ e : Expression, (∀ Column, e ≠ .IN Column []) →
      (RewriteWhere ⟨Name, .Where [e]⟩ builder).2 =
        .ok (builder.writeAll (.WriteString " WHERE " :: plain e))) ∧
    (∀ e : Expression, plain e ≠ inParentheses e) ∧
    (∀ (n idx : Nat) (Exprs : List Expression) (st : LoopState),
      whereLoop n idx Exprs ⟨false, builder⟩ = .ok st → st.wrapInParentheses = false) := by
  refine ⟨?_, ?_, ?_, ?_⟩
  · intro Exprs hn hIN
    refine ⟨switchPosition Exprs 0 Exprs, ?_, ?_⟩
    · rw [RewriteWhere_eq _ _ _ hIN]
    · rw [RewriteWhere_eq _ _ _ hIN]
      have hr : rendered Exprs.length =
          fun e => if wrapped e = true then inParentheses e else plain e := by
        funext e
        simp [rendered, hn]
      rw [hr]
  · intro e he
    have hIN : ∀ Column, Expression.IN Column [] ∉ [e] := by
      intro c hc
      simp only [List.mem_singleton] at hc
      exact he c hc.symm
    rw [RewriteWhere_eq _ _ _ hIN]
    have hfix : switchPosition [e] 0 [e] = [e] := by
      simp [switchPosition]
    rw [hfix]
    simp [rendered]
  · intro e h
    have hl := congrArg List.length h
    cases e with
    | IN Column Values =>
      simp only [plain, inParentheses] at hl
      split at hl <;> simp at hl
    | _ => simp [plain, inParentheses] at hl
  · intro n idx Exprs st h
    exact whereLoop_flag n Exprs idx builder st h

/-- Witness of `RewriteWhere_parentheses`: the raw text `Vendor = ?`, which has
`or` inside an identifier, is wrapped after another condition and is not
wrapped when it stands alone. -/
theorem RewriteWhere_parentheses_witness :
    (RewriteWhere ⟨"WHERE", .Where [.Other "a", .Expr "Vendor = ?" []]⟩ (.Other [])).2 =
        .ok (.Other [.WriteString " WHERE ", .Build (.Other "a"), .WriteString " AND ",
          .WriteString "(", .Build (.Expr "Vendor = ?" []), .WriteString ")"]) ∧
      (RewriteWhere ⟨"WHERE", .Where [.Expr "Vendor = ?" []]⟩ (.Other [])).2 =
        .ok (.Other [.WriteString " WHERE ", .Build (.Expr "Vendor = ?" [])]) := by
  constructor
  · obtain ⟨fixed, h1, h2⟩ := (RewriteWhere_parentheses "WHERE" (.Other [])).1
      [.Other "a", .Expr "Vendor = ?" []] (by decide) (by simp)
    have hf : fixed = [.Other "a", .Expr "Vendor = ?" []] := by
      have h3 : (RewriteWhere ⟨"WHERE", .Where [.Other "a", .Expr "Vendor = ?" []]⟩
          (.Other [])).1 = ⟨"WHERE", .Where [.Other "a", .Expr "Vendor = ?" []]⟩ := rfl
      rw [h3] at h1
      cases h1
      rfl
    rw [h2, hf]
    rfl
  · exact (RewriteWhere_parentheses "WHERE" (.Other [])).2.1 (.Expr "Vendor = ?" [])
      (fun _ h => Expression.noConfusion h)

/-- C5 (failing input): on a `clause.IN` without values the expression
`e.Values[0]` is out of range and `RewriteWhere` panics instead of handing the
predicate to the default renderer. -/
theorem RewriteWhere_IN_without_values (builder : Builder) :
    (RewriteWhere ⟨"WHERE", .Where [.IN "id" []]⟩ builder).2 = .error .indexOutOfRange := by
  rfl



/-! ## `RewriteLimit` -/

theorem render_append (r : Renderer) (xs ys : List Write) :
    render r (xs ++ ys) = render r xs ++ render r ys := by
  induction xs with
  | nil => simp [render]
  | cons x xs ih => simp [render, ih, String.append_assoc]

theorem quoteSegments_append (w : List Write) (segs : List String) :
    ∀ idx : Nat, quoteSegments w idx segs = w ++ quoteSegments [] idx segs := by
  induction segs generalizing w with
  | nil => intro idx; simp [quoteSegments]
  | cons s segs ih =>
    intro idx
    simp only [quoteSegments]
    rw [ih, ih ((((if idx > 0 then [] ++ [Write.WriteString ".\""] else []) ++
      [Write.WriteString s]) ++ [Write.WriteString "\""]))]
    by_cases h : idx > 0 <;> simp [h]

theorem QuoteTo_append (w : List Write) (str : String) :
    QuoteTo w str = w ++ QuoteTo [] str := by
  simp only [QuoteTo]
  split
  · rw [quoteSegments_append, quoteSegments_append ([] ++ _)]
    simp
  · simp

theorem RewriteLimit_written (Name : String) (limit offset : Int) (stmt : Statement) :
    (RewriteLimit ⟨Name, .Limit limit offset⟩ (.Statement stmt)).written =
      stmt.SQL ++
        ((if "ORDER BY" ∈ stmt.Clauses then []
          else
            match primaryField stmt with
            | some field =>
              Write.WriteString "ORDER BY " :: (QuoteTo [] field.DBName ++ [.WriteString " "])
            | none =>
              [.WriteString "ORDER BY ", .WriteString "(SELECT NULL FROM ", .WriteString "DUAL",
                .WriteString ")"]) ++
          ((if 0 < offset then
              [Write.WriteString " OFFSET ", .WriteString (Itoa offset), .WriteString " ROWS"]
            else []) ++
            (if 0 < limit then
              [Write.WriteString " FETCH NEXT ", .WriteString (Itoa limit),
                .WriteString " ROWS ONLY"]
            else []))) := by
  simp only [RewriteLimit, primaryField]
  by_cases hord : "ORDER BY" ∈ stmt.Clauses
  · by_cases ho : 0 < offset <;> by_cases hl : 0 < limit <;>
      simp [hord, ho, hl, Builder.WriteString, Builder.write, Builder.written]
  · cases hs : stmt.Schema with
    | none =>
      by_cases ho : 0 < offset <;> by_cases hl : 0 < limit <;>
        simp [hord, ho, hl, hs, Builder.WriteString, Builder.write, Builder.written,
          DummyTableName]
    | some s =>
      cases hp : s.PrioritizedPrimaryField with
      | none =>
        by_cases ho : 0 < offset <;> by_cases hl : 0 < limit <;>
          simp [hord, ho, hl, hs, hp, Builder.WriteString, Builder.write, Builder.written,
            DummyTableName]
      | some field =>
        by_cases ho : 0 < offset <;> by_cases hl : 0 < limit <;>
          simp [hord, ho, hl, hs, hp, Builder.WriteString, Builder.write, Builder.written,
            Builder.WriteQuoted, QuoteTo_append (stmt.SQL ++ _)]

theorem render_pagination (r : Renderer) (limit offset : Int) :
    render r
        ((if 0 < offset then
            [Write.WriteString " OFFSET ", .WriteString (Itoa offset), .WriteString " ROWS"]
          else []) ++
          (if 0 < limit then
            [Write.WriteString " FETCH NEXT ", .WriteString (Itoa limit),
              .WriteString " ROWS ONLY"]
          else [])) = pagination limit offset := by
  rw [render_append]
  by_cases ho : 0 < offset <;> by_cases hl : 0 < limit <;>
    simp [ho, hl, pagination, render, Write.text, String.append_assoc]

theorem render_orderBy (r : Renderer) (stmt : Statement) :
    render r
        (if "ORDER BY" ∈ stmt.Clauses then []
          else
            match primaryField stmt with
            | some field =>
              Write.WriteString "ORDER BY " :: (QuoteTo [] field.DBName ++ [.WriteString " "])
            | none =>
              [.WriteString "ORDER BY ", .WriteString "(SELECT NULL FROM ", .WriteString "DUAL",
                .WriteString ")"]) = injectedOrderBy r stmt := by
  unfold injectedOrderBy
  by_cases hord : "ORDER BY" ∈ stmt.Clauses
  · simp [hord, render]
  · simp only [hord, if_false]
    cases primaryField stmt with
    | none =>
      simp only [render, Write.text]
      decide
    | some field =>
      simp only [render, Write.text, render_append, String.append_empty, String.append_assoc]

theorem pagination_zero : pagination 0 0 = "" := by
  decide

theorem not_prefix_pagination (limit offset : Int) :
    ¬ "ORDER BY ".data <+: (pagination limit offset).data := by
  have hO : ∀ x : List Char, ¬ "ORDER BY ".data <+: ' ' :: x := by
    intro x h
    obtain ⟨t, ht⟩ := h
    have hd : "ORDER BY ".data = 'O' :: "RDER BY ".data := by decide
    rw [hd, List.cons_append, List.cons.injEq] at ht
    exact absurd ht.1 (by decide)
  unfold pagination
  by_cases ho : 0 < offset
  · simp only [ho, if_true, String.data_append]
    exact hO _
  · by_cases hl : 0 < limit
    · simp only [ho, hl, if_true, if_false, String.data_append]
      exact hO _
    · simp only [ho, hl, if_false, String.data_append]
      decide

/-- C6: on a statement without a registered ORDER BY clause and without a
prioritized primary field, `RewriteLimit` emits exactly
`ORDER BY (SELECT NULL FROM DUAL)`, then ` OFFSET <offset> ROWS` exactly when
`offset > 0`, then ` FETCH NEXT <limit> ROWS ONLY` exactly when `limit > 0`. -/
theorem RewriteLimit_no_order_by_no_primary (Name : String) (limit offset : Int)
    (stmt : Statement) (r : Renderer) (hord : "ORDER BY" ∉ stmt.Clauses)
    (hpk : primaryField stmt = none) :
    ∃ ws, (RewriteLimit ⟨Name, .Limit limit offset⟩ (.Statement stmt)).written =
        stmt.SQL ++ ws ∧
      render r ws =
        "ORDER BY (SELECT NULL FROM DUAL)" ++
          (if 0 < offset then " OFFSET " ++ Itoa offset ++ " ROWS" else "") ++
          (if 0 < limit then " FETCH NEXT " ++ Itoa limit ++ " ROWS ONLY" else "") := by
  refine ⟨_, RewriteLimit_written Name limit offset stmt, ?_⟩
  rw [render_append, render_pagination, render_orderBy]
  simp only [injectedOrderBy, hord, hpk, if_false, pagination, String.append_assoc]

/-- Witness of `RewriteLimit_no_order_by_no_primary`: offset 10 and limit 20 on
an empty statement without schema. -/
theorem RewriteLimit_no_order_by_no_primary_witness :
    ∃ ws, (RewriteLimit ⟨"LIMIT", .Limit 20 10⟩ (.Statement ⟨[], [], none⟩)).written = [] ++ ws ∧
      render ⟨id, fun _ => "", fun _ _ => ""⟩ ws =
        "ORDER BY (SELECT NULL FROM DUAL) OFFSET 10 ROWS FETCH NEXT 20 ROWS ONLY" :=
  RewriteLimit_no_order_by_no_primary "LIMIT" 20 10 ⟨[], [], none⟩
    ⟨id, fun _ => "", fun _ _ => ""⟩ (by decide) rfl

/-- C7: on a statement, `RewriteLimit` emits the injected ORDER BY followed by
the OFFSET and FETCH segments, and with offset 0 and limit 0 the injected ORDER
BY alone. The injected ORDER BY is empty when an `ORDER BY` clause is
registered; otherwise it is `ORDER BY `, the quoted column of the prioritized
primary field and a blank when the schema exposes such a field, and
`ORDER BY (SELECT NULL FROM DUAL)` when it does not. The emitted text starts
with `ORDER BY ` exactly when no `ORDER BY` clause is registered. -/
theorem RewriteLimit_order_by (Name : String) (limit offset : Int) (stmt : Statement)
    (r : Renderer) :
    ∃ ws ws₀,
      (RewriteLimit ⟨Name, .Limit limit offset⟩ (.Statement stmt)).written = stmt.SQL ++ ws ∧
      (RewriteLimit ⟨Name, .Limit 0 0⟩ (.Statement stmt)).written = stmt.SQL ++ ws₀ ∧
      render r ws = injectedOrderBy r stmt ++ pagination limit offset ∧
      render r ws₀ = injectedOrderBy r stmt ∧
      ("ORDER BY ".data <+: (render r ws).data ↔ "ORDER BY" ∉ stmt.Clauses) := by
  refine ⟨_, _, RewriteLimit_written Name limit offset stmt,
    RewriteLimit_written Name 0 0 stmt, ?_, ?_, ?_⟩
  · rw [render_append, render_pagination, render_orderBy]
  · rw [render_append, render_pagination, render_orderBy, pagination_zero, String.append_empty]
  · rw [render_append, render_pagination, render_orderBy]
    constructor
    · intro h hord
      simp only [injectedOrderBy, hord, if_true, String.empty_append] at h
      exact not_prefix_pagination limit offset h
    · intro hord
      simp only [injectedOrderBy, hord, if_false]
      cases primaryField stmt with
      | none =>
        simp only [String.data_append]
        exact ⟨"(SELECT NULL FROM DUAL)".data ++ (pagination limit offset).data, by
          rw [← List.append_assoc]
          rfl⟩
      | some field =>
        simp only [String.data_append, List.append_assoc]
        exact ⟨_, rfl⟩

/-! ## `Raw` -/

theorem char_le_iff_toNat (a b : Char) : a ≤ b ↔ a.toNat ≤ b.toNat := Iff.rfl

theorem eq_of_toNat_eq (c d : Char) (h : c.toNat = d.toNat) : c = d := by
  rw [← Char.ofNat_toNat c, ← Char.ofNat_toNat d, h]

theorem isIdentChar_iff (c : Char) :
    isIdentChar c = true ↔
      (97 ≤ c.toNat ∧ c.toNat ≤ 122) ∨ (65 ≤ c.toNat ∧ c.toNat ≤ 90) ∨
        (48 ≤ c.toNat ∧ c.toNat ≤ 57) ∨ c.toNat = 95 := by
  have hu : (c.val ≥ 65) ↔ 65 ≤ c.toNat := Iff.rfl
  have hU : (c.val ≤ 90) ↔ c.toNat ≤ 90 := Iff.rfl
  have hl : (c.val ≥ 97) ↔ 97 ≤ c.toNat := Iff.rfl
  have hL : (c.val ≤ 122) ↔ c.toNat ≤ 122 := Iff.rfl
  have hd : (c.val ≥ 48) ↔ 48 ≤ c.toNat := Iff.rfl
  have hD : (c.val ≤ 57) ↔ c.toNat ≤ 57 := Iff.rfl
  have he : c = '_' ↔ c.toNat = 95 :=
    ⟨fun h => h ▸ rfl, fun h => eq_of_toNat_eq c '_' h⟩
  simp only [isIdentChar, Char.isAlphanum, Char.isAlpha, Char.isUpper, Char.isLower,
    Char.isDigit, Bool.or_eq_true, Bool.and_eq_true, decide_eq_true_eq, beq_iff_eq,
    hu, hU, hl, hL, hd, hD, he]
  omega

theorem inClass_identRanges (c : Char) : inClass identRanges c = isIdentChar c := by
  rw [Bool.eq_iff_iff, isIdentChar_iff]
  have h1 : ('a' : Char).toNat = 97 := rfl
  have h2 : ('z' : Char).toNat = 122 := rfl
  have h3 : ('A' : Char).toNat = 65 := rfl
  have h4 : ('Z' : Char).toNat = 90 := rfl
  have h5 : ('0' : Char).toNat = 48 := rfl
  have h6 : ('9' : Char).toNat = 57 := rfl
  have h7 : ('_' : Char).toNat = 95 := rfl
  simp only [inClass, identRanges, List.any_cons, List.any_nil, Bool.or_false, Bool.or_eq_true,
    Bool.and_eq_true, decide_eq_true_eq, char_le_iff_toNat, h1, h2, h3, h4, h5, h6, h7]
  omega

theorem inClass_identRanges_fun : inClass identRanges = isIdentChar :=
  funext inClass_identRanges

theorem isIdentChar_backtick : isIdentChar backtick = false := by
  decide

theorem ne_backtick_of_isIdentChar (c : Char) (h : isIdentChar c = true) : c ≠ backtick := by
  intro hc
  rw [hc, isIdentChar_backtick] at h
  exact Bool.noConfusion h

theorem toNat_ofNat_small (n : Nat) (h : n < 55296) : (Char.ofNat n).toNat = n := by
  have hv : n.isValidChar := Or.inl h
  unfold Char.ofNat
  rw [dif_pos hv]
  simp [Char.ofNatAux, Char.toNat, UInt32.toNat]

theorem toUpper_ne_backtick (c : Char) (h : isIdentChar c = true) :
    c.toUpper ≠ backtick := by
  rw [isIdentChar_iff] at h
  intro hc
  have h96 : c.toUpper.toNat = 96 := by rw [hc]; rfl
  unfold Char.toUpper at h96
  simp only at h96
  split at h96
  · rename_i hr
    have hv : (Char.ofNat (c.toNat - 32)).toNat = c.toNat - 32 :=
      toNat_ofNat_small _ (by omega)
    omega
  · omega

theorem run_lit_nil (c : Char) : (Regexp.lit c).run [] = [] := rfl

theorem run_lit_cons (c x : Char) (t : List Char) :
    (Regexp.lit c).run (x :: t) = if x = c then [t] else [] := rfl

theorem run_cls_nil (ranges : List (Char × Char)) : (Regexp.cls ranges).run [] = [] := rfl

theorem run_cls_cons (ranges : List (Char × Char)) (x : Char) (t : List Char) :
    (Regexp.cls ranges).run (x :: t) = if inClass ranges x then [t] else [] := rfl

theorem run_plus (r : Regexp) (s : List Char) :
    (Regexp.plus r).run s = (r.run s).flatMap (repeatGreedy r.run s.length) := rfl

theorem run_cat (r₁ r₂ : Regexp) (s : List Char) :
    (Regexp.cat r₁ r₂).run s = (r₁.run s).flatMap r₂.run := rfl

theorem repeatGreedy_zero (m : List Char → List (List Char)) (s : List Char) :
    repeatGreedy m 0 s = [s] := rfl

theorem repeatGreedy_succ (m : List Char → List (List Char)) (fuel : Nat) (s : List Char) :
    repeatGreedy m (fuel + 1) s =
      ((m s).filter fun t => decide (t.length < s.length)).flatMap (repeatGreedy m fuel) ++ [s] :=
  rfl

theorem repeatGreedy_cls (ranges : List (Char × Char)) (s : List Char) :
    ∀ fuel : Nat, s.length ≤ fuel →
      repeatGreedy (Regexp.run (.cls ranges)) fuel s = afterRuns (inClass ranges) s := by
  induction s with
  | nil =>
    intro fuel _
    cases fuel with
    | zero => rfl
    | succ fuel => simp [repeatGreedy_succ, run_cls_nil, afterRuns]
  | cons c t ih =>
    intro fuel hf
    cases fuel with
    | zero => simp at hf
    | succ fuel =>
      have hf' : t.length ≤ fuel := by simpa using hf
      rw [repeatGreedy_succ, run_cls_cons]
      by_cases hc : inClass ranges c = true
      · simp [afterRuns, hc, ih fuel hf']
      · simp [afterRuns, hc]

theorem afterRuns_lit (p : Char → Bool) (c : Char) (hc : p c = false) (s : List Char) :
    (afterRuns p s).flatMap (Regexp.run (.lit c)) =
      match s.dropWhile p with
      | z :: rest => if z = c then [rest] else []
      | [] => [] := by
  induction s with
  | nil => simp [afterRuns, run_lit_nil]
  | cons x t ih =>
    by_cases hx : p x = true
    · have hxc : x ≠ c := fun h => by rw [h, hc] at hx; exact Bool.noConfusion hx
      simp only [afterRuns, hx, if_true, List.flatMap_append, ih, List.dropWhile_cons]
      simp [run_lit_cons, hxc]
    · simp [afterRuns, hx, run_lit_cons, List.dropWhile_cons]

theorem run_reg (s : List Char) : reg.run s = (tokenRest s).toList := by
  cases s with
  | nil => rfl
  | cons c l =>
    rw [reg, run_cat, run_lit_cons]
    by_cases hc : c = backtick
    · subst hc
      rw [if_pos rfl, List.flatMap_cons, List.flatMap_nil, List.append_nil, run_cat]
      cases l with
      | nil => rfl
      | cons y t =>
        rw [run_plus, run_cls_cons]
        by_cases hy : isIdentChar y = true
        · have hy' : inClass identRanges y = true := by rw [inClass_identRanges]; exact hy
          rw [if_pos hy', List.flatMap_cons, List.flatMap_nil, List.append_nil,
            repeatGreedy_cls identRanges t (y :: t).length (Nat.le_succ _),
            inClass_identRanges_fun,
            afterRuns_lit isIdentChar backtick isIdentChar_backtick]
          simp only [tokenRest, List.takeWhile_cons, hy, if_true, List.dropWhile_cons]
          cases t.dropWhile isIdentChar with
          | nil => simp
          | cons z rest => by_cases hz : z = backtick <;> simp [hz]
        · have hy' : ¬ inClass identRanges y = true := by
            rw [inClass_identRanges]; exact hy
          rw [if_neg hy']
          simp [tokenRest, List.takeWhile_cons, hy]
    · rw [if_neg hc]
      simp [tokenRest, hc]

theorem dropWhile_ident_append (id rest : List Char) (h : ∀ c ∈ id, isIdentChar c = true) :
    (id ++ backtick :: rest).dropWhile isIdentChar = backtick :: rest := by
  induction id with
  | nil => simp [List.dropWhile_cons, isIdentChar_backtick]
  | cons x id ih =>
    have hx : isIdentChar x = true := h x (List.mem_cons_self _ _)
    simp only [List.cons_append, List.dropWhile_cons, hx, if_true]
    exact ih fun c hc => h c (List.mem_cons_of_mem _ hc)

theorem takeWhile_ident_append (id rest : List Char) (h : ∀ c ∈ id, isIdentChar c = true) :
    (id ++ backtick :: rest).takeWhile isIdentChar = id := by
  induction id with
  | nil => simp [List.takeWhile_cons, isIdentChar_backtick]
  | cons x id ih =>
    have hx : isIdentChar x = true := h x (List.mem_cons_self _ _)
    simp only [List.cons_append, List.takeWhile_cons, hx, if_true]
    rw [ih fun c hc => h c (List.mem_cons_of_mem _ hc)]

theorem tokenRest_token (id rest : List Char) (hne : id ≠ [])
    (h : ∀ c ∈ id, isIdentChar c = true) :
    tokenRest (backtick :: id ++ backtick :: rest) = some rest := by
  simp only [tokenRest, List.cons_append, takeWhile_ident_append id rest h,
    dropWhile_ident_append id rest h]
  simp [hne]

theorem tokenRest_some (s rest : List Char) (h : tokenRest s = some rest) :
    ∃ id, id ≠ [] ∧ (∀ c ∈ id, isIdentChar c = true) ∧
      s = backtick :: id ++ backtick :: rest := by
  cases s with
  | nil => simp [tokenRest] at h
  | cons c l =>
    simp only [tokenRest] at h
    split at h
    · rename_i hc
      refine ⟨l.takeWhile isIdentChar, hc.2, ?_, ?_⟩
      · intro x hx
        exact List.mem_takeWhile_imp hx
      · have hsplit := List.takeWhile_append_dropWhile isIdentChar l
        cases hd : l.dropWhile isIdentChar with
        | nil => rw [hd] at h; simp at h
        | cons z r =>
          rw [hd] at h
          by_cases hz : z = backtick
          · simp only [hz, if_true, Option.some.injEq] at h
            rw [hd, hz, h] at hsplit
            rw [hc.1, List.cons_append, hsplit]
          · simp [hz] at h
    · simp at h

theorem tokenRest_none_iff (s : List Char) :
    tokenRest s = none ↔
      ¬ ∃ id rest, id ≠ [] ∧ (∀ x ∈ id, isIdentChar x = true) ∧
        s = backtick :: id ++ backtick :: rest := by
  constructor
  · rintro h ⟨id, rest, hne, hid, rfl⟩
    rw [tokenRest_token id rest hne hid] at h
    exact Option.noConfusion h
  · intro h
    cases ht : tokenRest s with
    | none => rfl
    | some rest =>
      obtain ⟨id, hne, hid, hs⟩ := tokenRest_some s rest ht
      exact absurd ⟨id, rest, hne, hid, hs⟩ h

theorem replaceAll_skip (re : Regexp) (repl : List Char → List Char) (pre rest : List Char) :
    replaceAll re repl pre.length (pre ++ rest) = replaceAll re repl 0 rest := by
  induction pre with
  | nil => rfl
  | cons x pre ih => simpa [replaceAll] using ih

theorem trim_token (id : List Char) (hne : id ≠ []) (h : ∀ c ∈ id, isIdentChar c = true) :
    Trim ⟨backtick :: id ++ [backtick]⟩ "`" = ⟨id⟩ := by
  have hcut : (fun c => "`".data.contains c) = fun c => decide (c = backtick) := by
    funext c
    have : "`".data = [backtick] := by decide
    rw [this]
    simp
  have hnb : ∀ c ∈ id, decide (c = backtick) = false := by
    intro c hc
    simpa using ne_backtick_of_isIdentChar c (h c hc)
  have hbt : decide (backtick = backtick) = true := by simp
  simp only [Trim, hcut]
  congr 1
  cases id with
  | nil => exact absurd rfl hne
  | cons x xs =>
    have hx : decide (x = backtick) = false := hnb x (List.mem_cons_self _ _)
    simp only [List.cons_append, List.dropWhile_cons, hbt, if_true, hx,
      Bool.false_eq_true, if_false, decide_True]
    have hrev : (x :: (xs ++ [backtick])).reverse = backtick :: (x :: xs).reverse := by
      simp
    rw [hrev]
    simp only [List.dropWhile_cons, hbt, if_true]
    have hlast : ((x :: xs).reverse).dropWhile (fun c => decide (c = backtick)) =
        (x :: xs).reverse := by
      cases hr : (x :: xs).reverse with
      | nil => rfl
      | cons y ys =>
        have hy : y ∈ x :: xs := by
          rw [← List.mem_reverse, hr]
          exact List.mem_cons_self _ _
        simp only [List.dropWhile_cons, hnb y hy, Bool.false_eq_true, if_false]
    rw [hlast]
    simp

theorem quoteUpper_token (id : List Char) (hne : id ≠ []) (h : ∀ c ∈ id, isIdentChar c = true) :
    quoteUpper (backtick :: id ++ [backtick]) = dquote :: id.map Char.toUpper ++ [dquote] := by
  simp only [quoteUpper, trim_token id hne h, ToUpper, String.data_append]
  rfl

theorem replaceAll_zero_cons (re : Regexp) (repl : List Char → List Char) (c : Char)
    (s : List Char) :
    replaceAll re repl 0 (c :: s) =
      match (re.run (c :: s)).head? with
      | some rest =>
        if rest.length < (c :: s).length then
          repl ((c :: s).take ((c :: s).length - rest.length)) ++
            replaceAll re repl ((c :: s).length - rest.length - 1) s
        else c :: replaceAll re repl 0 s
      | none => c :: replaceAll re repl 0 s := rfl

theorem rawScan_nil : rawScan [] = [] := rfl

theorem rawScan_copy (c : Char) (s : List Char) (h : tokenRest (c :: s) = none) :
    rawScan (c :: s) = c :: rawScan s := by
  simp only [rawScan, replaceAll_zero_cons, run_reg, h, Option.toList, List.head?_nil]

theorem rawScan_token (id rest : List Char) (hne : id ≠ [])
    (h : ∀ c ∈ id, isIdentChar c = true) :
    rawScan (backtick :: id ++ backtick :: rest) =
      dquote :: id.map Char.toUpper ++ dquote :: rawScan rest := by
  have hlen : (backtick :: (id ++ backtick :: rest)).length - rest.length = id.length + 2 := by
    simp only [List.length_cons, List.length_append]
    omega
  have hlt : rest.length < (backtick :: (id ++ backtick :: rest)).length := by
    simp only [List.length_cons, List.length_append]
    omega
  have htake : (backtick :: (id ++ backtick :: rest)).take (id.length + 2) =
      backtick :: id ++ [backtick] := by
    have : backtick :: (id ++ backtick :: rest) = (backtick :: id ++ [backtick]) ++ rest := by
      simp
    rw [this]
    apply List.take_left'
    simp
  have hskip : replaceAll reg quoteUpper (id.length + 2 - 1) (id ++ backtick :: rest) =
      replaceAll reg quoteUpper 0 rest := by
    have h1 : id ++ backtick :: rest = (id ++ [backtick]) ++ rest := by simp
    have h2 : id.length + 2 - 1 = (id ++ [backtick]).length := by simp
    rw [h1, h2, replaceAll_skip]
  have htok := tokenRest_token id rest hne h
  rw [List.cons_append] at htok ⊢
  simp only [rawScan, replaceAll_zero_cons, run_reg, htok, Option.toList, List.head?_cons]
  rw [if_pos hlt, hlen, htake, hskip, quoteUpper_token id hne h]
  simp

theorem rawScan_of_no_backtick (s : List Char) (h : backtick ∉ s) : rawScan s = s := by
  induction s with
  | nil => rfl
  | cons c s ih =>
    have hc : c ≠ backtick := fun hc => h (hc ▸ List.mem_cons_self _ _)
    have ht : tokenRest (c :: s) = none := by simp [tokenRest, hc]
    rw [rawScan_copy c s ht, ih fun hs => h (List.mem_cons_of_mem _ hs)]

theorem Contains_backtick (sql : String) : Contains sql "`" = true ↔ backtick ∈ sql.data := by
  have hb : "`".data = [backtick] := by decide
  rw [Contains, containsChars_iff, hb]
  constructor
  · rintro ⟨pre, post, h⟩
    rw [← h]
    simp
  · intro h
    obtain ⟨pre, post, h⟩ := List.append_of_mem h
    exact ⟨pre, post, by rw [h]; simp⟩

theorem Raw_data (sql : String) : (Raw sql).data = rawScan sql.data := by
  by_cases h : Contains sql "`" = true
  · simp only [Raw, h, if_true, ReplaceAllStringFunc]
    rfl
  · have hb : backtick ∉ sql.data := fun hb => h ((Contains_backtick sql).mpr hb)
    simp only [Raw, h, if_false, Bool.false_eq_true]
    rw [rawScan_of_no_backtick _ hb]

theorem rewritten_rawScan (n : Nat) : ∀ s : List Char, s.length ≤ n → Rewritten s (rawScan s) := by
  induction n with
  | zero =>
    intro s hs
    have : s = [] := List.eq_nil_of_length_eq_zero (Nat.le_zero.mp hs)
    subst this
    exact Rewritten.done
  | succ n ih =>
    intro s hs
    cases s with
    | nil => exact Rewritten.done
    | cons c s =>
      cases ht : tokenRest (c :: s) with
      | none =>
        rw [rawScan_copy c s ht]
        exact Rewritten.copy c s _ ((tokenRest_none_iff _).mp ht)
          (ih s (Nat.le_of_succ_le_succ hs))
      | some rest =>
        obtain ⟨id, hne, hid, hs'⟩ := tokenRest_some _ _ ht
        rw [hs', rawScan_token id rest hne hid]
        refine Rewritten.token id rest _ hne hid (ih rest ?_)
        have hl := congrArg List.length hs'
        simp only [List.length_cons, List.length_append] at hl hs
        omega

theorem rewritten_unique (s out : List Char) (h : Rewritten s out) : out = rawScan s := by
  induction h with
  | done => rfl
  | token id rest out hne hid _ ih => rw [rawScan_token id rest hne hid, ih]
  | copy c s out hno _ ih => rw [rawScan_copy c s ((tokenRest_none_iff _).mpr hno), ih]

theorem rawScan_takeWhile (s : List Char) :
    rawScan s = s.takeWhile isIdentChar ++ rawScan (s.dropWhile isIdentChar) := by
  induction s with
  | nil => rfl
  | cons c s ih =>
    by_cases hc : isIdentChar c = true
    · have ht : tokenRest (c :: s) = none := by
        simp [tokenRest, ne_backtick_of_isIdentChar c hc]
      rw [rawScan_copy c s ht, List.takeWhile_cons, List.dropWhile_cons, if_pos hc, if_pos hc,
        List.cons_append, ← ih]
    · rw [List.takeWhile_cons, List.dropWhile_cons, if_neg hc, if_neg hc, List.nil_append]

theorem rawScan_head (r : List Char) (y : Char) (ys : List Char)
    (hr : ∀ x xs, r = x :: xs → isIdentChar x = false) (h : rawScan r = y :: ys) :
    isIdentChar y = false ∧ (y = backtick → ∃ r1, r = backtick :: r1) := by
  cases r with
  | nil => rw [rawScan_nil] at h; exact List.noConfusion h
  | cons x xs =>
    cases ht : tokenRest (x :: xs) with
    | none =>
      rw [rawScan_copy x xs ht] at h
      have hxy : x = y := (List.cons.inj h).1
      subst hxy
      exact ⟨hr x xs rfl, fun hb => ⟨xs, by rw [hb]⟩⟩
    | some rest =>
      obtain ⟨id, hne, hid, hs⟩ := tokenRest_some _ _ ht
      rw [hs, rawScan_token id rest hne hid] at h
      have hy : dquote = y := (List.cons.inj h).1
      subst hy
      exact ⟨by decide, fun hb => absurd hb (by decide)⟩

theorem takeWhile_append_stop (tw X : List Char) (htw : ∀ c ∈ tw, isIdentChar c = true)
    (hX : ∀ y ys, X = y :: ys → isIdentChar y = false) :
    (tw ++ X).takeWhile isIdentChar = tw ∧ (tw ++ X).dropWhile isIdentChar = X := by
  induction tw with
  | nil =>
    cases X with
    | nil => exact ⟨rfl, rfl⟩
    | cons y ys => simp [List.takeWhile_cons, List.dropWhile_cons, hX y ys rfl]
  | cons c tw ih =>
    have hc : isIdentChar c = true := htw c (List.mem_cons_self _ _)
    have ih' := ih fun x hx => htw x (List.mem_cons_of_mem _ hx)
    simp only [List.cons_append, List.takeWhile_cons, List.dropWhile_cons, hc, if_true]
    exact ⟨by rw [ih'.1], ih'.2⟩

theorem dropWhile_head_not (s : List Char) :
    ∀ x xs, s.dropWhile isIdentChar = x :: xs → isIdentChar x = false := by
  induction s with
  | nil => intro x xs h; exact List.noConfusion h
  | cons c s ih =>
    intro x xs h
    by_cases hc : isIdentChar c = true
    · rw [List.dropWhile_cons, if_pos hc] at h
      exact ih x xs h
    · rw [List.dropWhile_cons, if_neg hc] at h
      have hcx : c = x := (List.cons.inj h).1
      subst hcx
      simpa using hc

theorem tokenRest_backtick_rawScan (s : List Char) (h : tokenRest (backtick :: s) = none) :
    tokenRest (backtick :: rawScan s) = none := by
  have hsplit := takeWhile_append_stop (s.takeWhile isIdentChar)
    (rawScan (s.dropWhile isIdentChar)) (fun c hc => List.mem_takeWhile_imp hc)
    (fun y ys hy => (rawScan_head _ y ys (dropWhile_head_not s) hy).1)
  rw [← rawScan_takeWhile] at hsplit
  cases ht : tokenRest (backtick :: rawScan s) with
  | none => rfl
  | some rest =>
    exfalso
    simp only [tokenRest, hsplit.1, hsplit.2] at ht
    split at ht
    · rename_i hne
      cases hd : rawScan (s.dropWhile isIdentChar) with
      | nil => rw [hd] at ht; simp at ht
      | cons z zs =>
        rw [hd] at ht
        by_cases hz : z = backtick
        · obtain ⟨r1, hr1⟩ := (rawScan_head _ z zs (dropWhile_head_not s) hd).2 hz
          simp only [tokenRest, hr1] at h
          simp [hne.2] at h
        · simp [hz] at ht
    · simp at ht

theorem tokenFree_append (pre Y : List Char) (hpre : ∀ c ∈ pre, c ≠ backtick)
    (hY : ∀ t, t <:+ Y → tokenRest t = none) : ∀ t, t <:+ pre ++ Y → tokenRest t = none := by
  induction pre with
  | nil => exact hY
  | cons x pre ih =>
    intro t ht
    rw [List.cons_append, List.suffix_cons_iff] at ht
    rcases ht with ht | ht
    · subst ht
      have hx : x ≠ backtick := hpre x (List.mem_cons_self _ _)
      simp [tokenRest, hx]
    · exact ih (fun c hc => hpre c (List.mem_cons_of_mem _ hc)) t ht

theorem tokenFree_rawScan (n : Nat) :
    ∀ s : List Char, s.length ≤ n → ∀ t, t <:+ rawScan s → tokenRest t = none := by
  induction n with
  | zero =>
    intro s hs t ht
    have : s = [] := List.eq_nil_of_length_eq_zero (Nat.le_zero.mp hs)
    subst this
    rw [rawScan_nil] at ht
    rw [List.suffix_nil.mp ht]
    rfl
  | succ n ih =>
    intro s hs t ht
    cases s with
    | nil =>
      rw [rawScan_nil] at ht
      rw [List.suffix_nil.mp ht]
      rfl
    | cons c s =>
      cases hts : tokenRest (c :: s) with
      | none =>
        rw [rawScan_copy c s hts, List.suffix_cons_iff] at ht
        rcases ht with ht | ht
        · subst ht
          by_cases hc : c = backtick
          · subst hc
            exact tokenRest_backtick_rawScan s hts
          · simp [tokenRest, hc]
        · exact ih s (Nat.le_of_succ_le_succ hs) t ht
      | some rest =>
        obtain ⟨id, hne, hid, hs'⟩ := tokenRest_some _ _ hts
        have hlen : rest.length ≤ n := by
          have hl := congrArg List.length hs'
          simp only [List.length_cons, List.length_append] at hl hs
          omega
        rw [hs', rawScan_token id rest hne hid] at ht
        have hshape : dquote :: List.map Char.toUpper id ++ dquote :: rawScan rest =
            (dquote :: List.map Char.toUpper id ++ [dquote]) ++ rawScan rest := by simp
        rw [hshape] at ht
        refine tokenFree_append _ _ ?_ (ih rest hlen) t ht
        intro x hx
        simp only [List.cons_append, List.mem_cons, List.mem_append, List.mem_map,
          List.not_mem_nil, or_false] at hx
        rcases hx with hx | ⟨a, ha, hx⟩ | hx
        · rw [hx]; decide
        · rw [← hx]; exact toUpper_ne_backtick a (hid a ha)
        · rw [hx]; decide

theorem rawScan_of_tokenFree (l : List Char) (h : ∀ t, t <:+ l → tokenRest t = none) :
    rawScan l = l := by
  induction l with
  | nil => rfl
  | cons c l ih =>
    rw [rawScan_copy c l (h _ (List.suffix_refl _)),
      ih fun t ht => h t (List.suffix_cons_iff.mpr (Or.inr ht))]

theorem rawScan_idem (s : List Char) : rawScan (rawScan s) = rawScan s :=
  rawScan_of_tokenFree _ (tokenFree_rawScan s.length s (Nat.le_refl _))

/-- C8: the text after `Raw` is the one and only text that the reference
description relates to the text before it (every token of a backtick, one or
more characters of `[A-Za-z0-9_]` and a backtick, taken from the left without
overlap, replaced by the upper-cased characters between double quotes, every
other character copied in place), and a text without backtick is returned
unchanged. -/
theorem Raw_reference (sql : String) :
    (∀ out : List Char, Rewritten sql.data out ↔ out = (Raw sql).data) ∧
      (backtick ∉ sql.data → Raw sql = sql) := by
  constructor
  · intro out
    rw [Raw_data]
    constructor
    · exact rewritten_unique _ _
    · intro h
      rw [h]
      exact rewritten_rawScan sql.data.length _ (Nat.le_refl _)
  · intro h
    apply String.ext
    rw [Raw_data, rawScan_of_no_backtick _ h]

/-- Witness of `Raw_reference`: the token around `user_id` becomes `USER_ID`
between double quotes, and a text without backtick stays as it is. -/
theorem Raw_reference_witness :
    Rewritten "`user_id`".data "\"USER_ID\"".data ∧ Raw "select 1" = "select 1" :=
  ⟨((Raw_reference "`user_id`").1 "\"USER_ID\"".data).mpr (by decide),
    (Raw_reference "select 1").2 (by decide)⟩

/-- C9: `Raw` is idempotent: applied to its own output it returns that
output. -/
theorem Raw_idempotent (sql : String) : Raw (Raw sql) = Raw sql := by
  apply String.ext
  rw [Raw_data, Raw_data, rawScan_idem]

/-- C10 (as stated, refuted): the output of `Raw` can contain backticks; those
around `first name`, which is no token because of the blank, stay. -/
theorem Raw_keeps_other_backticks :
    backtick ∈ (Raw "select `first name` from t").data := by
  decide

/-- C10 (amended): the output of `Raw` contains no token: no backtick followed
by one or more characters of `[A-Za-z0-9_]` and a backtick. -/
theorem Raw_output_token_free (sql : String) (id : List Char) (hne : id ≠ [])
    (hid : ∀ c ∈ id, isIdentChar c = true) :
    ¬ (backtick :: id ++ [backtick]) <:+: (Raw sql).data := by
  rintro ⟨pre, post, h⟩
  rw [Raw_data] at h
  have hsuf : (backtick :: id ++ backtick :: post) <:+ rawScan sql.data :=
    ⟨pre, by rw [← h]; simp⟩
  have hnone := tokenFree_rawScan sql.data.length sql.data (Nat.le_refl _) _ hsuf
  rw [tokenRest_token id post hne hid] at hnone
  exact Option.noConfusion hnone

/-- Witness of `Raw_output_token_free`: the token around `id` is not in the
output for a text that has it. -/
theorem Raw_output_token_free_witness :
    ¬ (backtick :: "id".data ++ [backtick]) <:+: (Raw "select `id` from `t`").data :=
  Raw_output_token_free "select `id` from `t`" "id".data (by decide) (by decide)



/-! ## `DataTypeOf` -/

theorem intRank_intBase_mono (a b : Int) (h : a ≤ b) :
    intRank (intBase a) ≤ intRank (intBase b) := by
  unfold intBase
  split_ifs <;> first | omega | decide

/-- C13: for a field of logical type `int` or `uint` the result is the base
type of the size (tinyint up to 8, smallint up to 16, mediumint up to 24, int up
to 32, bigint above), then ` unsigned` for `uint`, then ` AUTO_INCREMENT` for an
auto-increment field; the field is left as it is, and the base type is monotone
in the size along tinyint < smallint < mediumint < int < bigint. -/
theorem DataTypeOf_integer (d : Dialector) (field : Field)
    (h : field.DataType = "int" ∨ field.DataType = "uint") :
    DataTypeOf d field =
        .ok (field,
          intBase field.Size ++ (if field.DataType = "uint" then " unsigned" else "") ++
            (if field.AutoIncrement = true then " AUTO_INCREMENT" else "")) ∧
      ∀ a b : Int, a ≤ b → intRank (intBase a) ≤ intRank (intBase b) := by
  refine ⟨?_, intRank_intBase_mono⟩
  have hb : field.DataType ≠ "bool" := by
    rcases h with h | h <;> rw [h] <;> decide
  have hbase : (if field.Size ≤ 8 then "tinyint"
      else if field.Size ≤ 16 then "smallint"
      else if field.Size ≤ 24 then "mediumint"
      else if field.Size ≤ 32 then "int"
      else "bigint") = intBase field.Size := by
    unfold intBase
    split_ifs <;> first | rfl | omega
  unfold DataTypeOf
  rw [if_neg hb, if_pos h]
  simp only [hbase]
  by_cases hu : field.DataType = "uint" <;> by_cases ha : field.AutoIncrement = true <;>
    simp [hu, ha, String.append_assoc]

/-- Witness of `DataTypeOf_integer`: an unsigned auto-increment field of size
20. -/
theorem DataTypeOf_integer_witness :
    DataTypeOf (Open "dsn") ⟨"id", "uint", 20, 0, 0, true, true, true, false, []⟩ =
        .ok (⟨"id", "uint", 20, 0, 0, true, true, true, false, []⟩,
          "mediumint unsigned AUTO_INCREMENT") ∧
      ∀ a b : Int, a ≤ b → intRank (intBase a) ≤ intRank (intBase b) :=
  DataTypeOf_integer (Open "dsn") ⟨"id", "uint", 20, 0, 0, true, true, true, false, []⟩
    (Or.inr rfl)

/-- C16: for a field of logical type `bytes` the result is `varbinary(size)`
for `0 < size < 65536`, `mediumblob` for `65536 ≤ size ≤ 16777216` and
`longblob` for every other size; the three cases are exhaustive and exclude one
another, and the field is left as it is. -/
theorem DataTypeOf_bytes (d : Dialector) (field : Field) (h : field.DataType = "bytes") :
    (0 < field.Size ∧ field.Size < 65536 →
        DataTypeOf d field = .ok (field, "varbinary(" ++ Itoa field.Size ++ ")")) ∧
      (65536 ≤ field.Size ∧ field.Size ≤ 16777216 →
        DataTypeOf d field = .ok (field, "mediumblob")) ∧
      (field.Size ≤ 0 ∨ 16777216 < field.Size →
        DataTypeOf d field = .ok (field, "longblob")) ∧
      ((0 < field.Size ∧ field.Size < 65536) ∨
        (65536 ≤ field.Size ∧ field.Size ≤ 16777216) ∨
        (field.Size ≤ 0 ∨ 16777216 < field.Size)) ∧
      ¬ ((0 < field.Size ∧ field.Size < 65536) ∧
        (65536 ≤ field.Size ∧ field.Size ≤ 16777216)) ∧
      ¬ ((0 < field.Size ∧ field.Size < 65536) ∧
        (field.Size ≤ 0 ∨ 16777216 < field.Size)) ∧
      ¬ ((65536 ≤ field.Size ∧ field.Size ≤ 16777216) ∧
        (field.Size ≤ 0 ∨ 16777216 < field.Size)) := by
  have h1 : field.DataType ≠ "bool" := by rw [h]; decide
  have h2 : ¬ (field.DataType = "int" ∨ field.DataType = "uint") := by rw [h]; decide
  have h3 : field.DataType ≠ "float" := by rw [h]; decide
  have h4 : field.DataType ≠ "string" := by rw [h]; decide
  have h5 : field.DataType ≠ "time" := by rw [h]; decide
  have hdef : DataTypeOf d field =
      if field.Size > 0 ∧ field.Size < 65536 then
        .ok (field, "varbinary(" ++ Itoa field.Size ++ ")")
      else if field.Size ≥ 65536 ∧ field.Size ≤ pow2_24 then .ok (field, "mediumblob")
      else .ok (field, "longblob") := by
    unfold DataTypeOf
    rw [if_neg h1, if_neg h2, if_neg h3, if_neg h4, if_neg h5, if_pos h]
  rw [hdef]
  unfold pow2_24
  refine ⟨?_, ?_, ?_, by omega, by omega, by omega, by omega⟩
  · intro hc
    rw [if_pos hc]
  · intro hc
    rw [if_neg (by omega), if_pos hc]
  · intro hc
    rw [if_neg (by omega), if_neg (by omega)]

/-- Witness of `DataTypeOf_bytes`: the sizes 16, 65536 and 0. -/
theorem DataTypeOf_bytes_witness :
    DataTypeOf (Open "dsn") ⟨"b", "bytes", 16, 0, 0, false, false, false, false, []⟩ =
        .ok (⟨"b", "bytes", 16, 0, 0, false, false, false, false, []⟩, "varbinary(16)") ∧
      DataTypeOf (Open "dsn") ⟨"b", "bytes", 65536, 0, 0, false, false, false, false, []⟩ =
        .ok (⟨"b", "bytes", 65536, 0, 0, false, false, false, false, []⟩, "mediumblob") ∧
      DataTypeOf (Open "dsn") ⟨"b", "bytes", 0, 0, 0, false, false, false, false, []⟩ =
        .ok (⟨"b", "bytes", 0, 0, 0, false, false, false, false, []⟩, "longblob") :=
  ⟨(DataTypeOf_bytes (Open "dsn") ⟨"b", "bytes", 16, 0, 0, false, false, false, false, []⟩
      rfl).1 (by decide),
    (DataTypeOf_bytes (Open "dsn") ⟨"b", "bytes", 65536, 0, 0, false, false, false, false, []⟩
      rfl).2.1 (by decide),
    (DataTypeOf_bytes (Open "dsn") ⟨"b", "bytes", 0, 0, 0, false, false, false, false, []⟩
      rfl).2.2.1 (by decide)⟩

theorem intOfUint_of_lt (u : Nat) (h : u < 2 ^ 64) :
    (u < 2 ^ 63 → intOfUint u = (u : Int)) ∧ (2 ^ 63 ≤ u → intOfUint u < 0) := by
  unfold intOfUint
  rw [Nat.mod_eq_of_lt h]
  constructor
  · intro hlt
    rw [if_pos hlt]
  · intro hge
    rw [if_neg (by omega)]
    have h1 : ((u : Nat) : Int) < 2 ^ 64 := by exact_mod_cast h
    omega

theorem DataTypeOf_string_eq (d : Dialector) (field : Field) (h : field.DataType = "string") :
    DataTypeOf d field =
      if stringSize d field ≥ 65536 ∧ stringSize d field ≤ pow2_24 then
        .ok (field, "mediumtext")
      else if stringSize d field > pow2_24 ∨ stringSize d field ≤ 0 then .ok (field, "longtext")
      else .ok (field, "varchar(" ++ Itoa (stringSize d field) ++ ")") := by
  have h1 : field.DataType ≠ "bool" := by rw [h]; decide
  have h2 : ¬ (field.DataType = "int" ∨ field.DataType = "uint") := by rw [h]; decide
  have h3 : field.DataType ≠ "float" := by rw [h]; decide
  unfold DataTypeOf
  rw [if_neg h1, if_neg h2, if_neg h3, if_pos h]

/-- C14: for a field of logical type `string` (and a default string size within
the range of a `uint`), with the effective size `e` of the field, the result is
`mediumtext` for `65536 ≤ e ≤ 16777216`, `longtext` for `e > 16777216` or
`e ≤ 0`, and `varchar(e)` for `1 ≤ e ≤ 65535`; the field is left as it is. -/
theorem DataTypeOf_string (d : Dialector) (field : Field) (h : field.DataType = "string")
    (hu : d.Config.DefaultStringSize < 2 ^ 64) :
    (65536 ≤ effectiveStringSize d field ∧ effectiveStringSize d field ≤ 16777216 →
        DataTypeOf d field = .ok (field, "mediumtext")) ∧
      (16777216 < effectiveStringSize d field ∨ effectiveStringSize d field ≤ 0 →
        DataTypeOf d field = .ok (field, "longtext")) ∧
      (1 ≤ effectiveStringSize d field ∧ effectiveStringSize d field ≤ 65535 →
        DataTypeOf d field =
          .ok (field, "varchar(" ++ Itoa (effectiveStringSize d field) ++ ")")) := by
  rw [DataTypeOf_string_eq d field h]
  generalize hsz : stringSize d field = sz
  have hidx : (tagSetting field.TagSettings "INDEX" ≠ "" ∨
      tagSetting field.TagSettings "UNIQUE" ≠ "") ↔ hasIndex field = true := by
    simp [hasIndex]
  have key : sz = effectiveStringSize d field ∨
      (sz ≤ 0 ∧ 16777216 < effectiveStringSize d field) := by
    rw [← hsz]
    unfold effectiveStringSize stringSize
    by_cases h0 : field.Size = 0
    · rw [if_pos h0, if_neg (not_not.mpr h0)]
      by_cases hd : d.Config.DefaultStringSize > 0
      · rw [if_pos hd, if_pos hd]
        by_cases hlt : d.Config.DefaultStringSize < 2 ^ 63
        · left
          exact (intOfUint_of_lt _ hu).1 hlt
        · right
          have hneg := (intOfUint_of_lt _ hu).2 (by omega)
          have hbig : (2 : Int) ^ 63 ≤ (d.Config.DefaultStringSize : Int) := by
            exact_mod_cast (Nat.le_of_not_lt hlt)
          omega
      · rw [if_neg hd, if_neg hd]
        left
        simp only [hidx, h0]
    · rw [if_neg h0, if_pos h0]
      left
      rfl
  unfold pow2_24
  refine ⟨?_, ?_, ?_⟩
  · intro hc
    rcases key with key | key
    · rw [key, if_pos ⟨hc.1, hc.2⟩]
    · omega
  · intro hc
    rcases key with key | key
    · rw [key, if_neg (by omega), if_pos (by omega)]
    · rw [if_neg (by omega), if_pos (by omega)]
  · intro hc
    rcases key with key | key
    · rw [key, if_neg (by omega), if_neg (by omega)]
    · omega

/-- Witness of `DataTypeOf_string`: a primary key without size under a
configuration without default size, a field of size 70000, and a field without
size under the default size 1024. -/
theorem DataTypeOf_string_witness :
    DataTypeOf (Open "dsn") ⟨"k", "string", 0, 0, 0, true, false, false, false, []⟩ =
        .ok (⟨"k", "string", 0, 0, 0, true, false, false, false, []⟩, "varchar(191)") ∧
      DataTypeOf (Open "dsn") ⟨"k", "string", 70000, 0, 0, false, false, false, false, []⟩ =
        .ok (⟨"k", "string", 70000, 0, 0, false, false, false, false, []⟩, "mediumtext") ∧
      DataTypeOf (Open "dsn") ⟨"k", "string", 0, 0, 0, false, false, false, false, []⟩ =
        .ok (⟨"k", "string", 0, 0, 0, false, false, false, false, []⟩, "longtext") :=
  ⟨(DataTypeOf_string (Open "dsn") ⟨"k", "string", 0, 0, 0, true, false, false, false, []⟩
      rfl (by decide)).2.2 (by decide),
    (DataTypeOf_string (Open "dsn") ⟨"k", "string", 70000, 0, 0, false, false, false, false, []⟩
      rfl (by decide)).1 (by decide),
    (DataTypeOf_string (Open "dsn") ⟨"k", "string", 0, 0, 0, false, false, false, false, []⟩
      rfl (by decide)).2.1 (by decide)⟩

theorem DataTypeOf_time_eq (d : Dialector) (field : Field) (h : field.DataType = "time") :
    DataTypeOf d field =
      match (if d.Config.DisableDatetimePrecision = false ∧ field.Precision = 0 then
          match d.Config.DefaultDatetimePrecision with
          | some p =>
            Except.ok (⟨field.DBName, field.DataType, field.Size, p, field.Scale,
              field.PrimaryKey, field.AutoIncrement, field.NotNull, field.HasDefaultValue,
              field.TagSettings⟩ : Field)
          | none => Except.error Panic.nilDereference
        else Except.ok field : Except Panic Field) with
      | .error p => .error p
      | .ok field =>
        if field.NotNull = true ∨ field.PrimaryKey = true then
          .ok (field, "datetime" ++
            (if field.Precision > 0 then "(" ++ Itoa field.Precision ++ ")" else ""))
        else
          .ok (field, "datetime" ++
            (if field.Precision > 0 then "(" ++ Itoa field.Precision ++ ")" else "") ++
              " NULL") := by
  have h1 : field.DataType ≠ "bool" := by rw [h]; decide
  have h2 : ¬ (field.DataType = "int" ∨ field.DataType = "uint") := by rw [h]; decide
  have h3 : field.DataType ≠ "float" := by rw [h]; decide
  have h4 : field.DataType ≠ "string" := by rw [h]; decide
  unfold DataTypeOf
  rw [if_neg h1, if_neg h2, if_neg h3, if_neg h4, if_pos h]

/-- C11 (failing input): on a dialector built by `Open`, whose default datetime
precision is nil and whose toggle `DisableDatetimePrecision` is off, a time
field of precision 0 makes `DataTypeOf` read through the nil pointer: the call
panics instead of returning a column type. -/
theorem DataTypeOf_time_nil_default (dsn : String) :
    DataTypeOf (Open dsn) ⟨"created_at", "time", 0, 0, 0, false, false, false, false, []⟩ =
      .error .nilDereference := by
  rfl

/-- C12 (as stated, refuted): for a time field of precision 0 under the configured
precision 3, the field after `DataTypeOf` has precision 3, not the precision 0
it had before. -/
theorem DataTypeOf_time_writes_precision :
    DataTypeOf (New ⟨"dm", "dsn", none, false, 0, some 3, false, false, false, false⟩)
        ⟨"created_at", "time", 0, 0, 0, false, false, false, false, []⟩ =
      .ok (⟨"created_at", "time", 0, 3, 0, false, false, false, false, []⟩,
        "datetime(3) NULL") ∧
      (⟨"created_at", "time", 0, 3, 0, false, false, false, false, []⟩ : Field).Precision ≠
        (⟨"created_at", "time", 0, 0, 0, false, false, false, false, []⟩ : Field).Precision := by
  refine ⟨rfl, by decide⟩

/-- C12 (amended): `DataTypeOf` leaves the field as it is, except for a time
field of precision 0 when the toggle `DisableDatetimePrecision` is off: there
(with a configured default precision) the precision of the field becomes the
configured default and every other attribute stays. -/
theorem DataTypeOf_field_after (d : Dialector) (field : Field) :
    (¬ (field.DataType = "time" ∧ d.Config.DisableDatetimePrecision = false ∧
          field.Precision = 0) →
        ∃ sqlType, DataTypeOf d field = .ok (field, sqlType)) ∧
      (field.DataType = "time" ∧ d.Config.DisableDatetimePrecision = false ∧
          field.Precision = 0 →
        ∀ configured, d.Config.DefaultDatetimePrecision = some configured →
          ∃ sqlType, DataTypeOf d field =
            .ok (⟨field.DBName, field.DataType, field.Size, configured, field.Scale,
              field.PrimaryKey, field.AutoIncrement, field.NotNull, field.HasDefaultValue,
              field.TagSettings⟩, sqlType)) := by
  constructor
  · intro hno
    by_cases ht : field.DataType = "time"
    · have hc : ¬ (d.Config.DisableDatetimePrecision = false ∧ field.Precision = 0) :=
        fun hc => hno ⟨ht, hc⟩
      rw [DataTypeOf_time_eq d field ht, if_neg hc]
      simp only
      split
      · exact ⟨_, rfl⟩
      · exact ⟨_, rfl⟩
    · unfold DataTypeOf
      rw [if_neg ht]
      simp only []
      repeat' split
      all_goals exact ⟨_, rfl⟩
  · rintro ⟨ht, hc⟩ configured hcfg
    rw [DataTypeOf_time_eq d field ht, if_pos hc, hcfg]
    simp only
    split
    · exact ⟨_, rfl⟩
    · exact ⟨_, rfl⟩

/-- Witness of `DataTypeOf_field_after`: a string field stays as it is, and a
time field of precision 0 gets the configured precision 6. -/
theorem DataTypeOf_field_after_witness :
    (∃ sqlType, DataTypeOf (Open "dsn")
        ⟨"name", "string", 32, 0, 0, false, false, false, false, []⟩ =
        .ok (⟨"name", "string", 32, 0, 0, false, false, false, false, []⟩, sqlType)) ∧
      ∃ sqlType,
        DataTypeOf (New ⟨"dm", "dsn", none, false, 0, some 6, false, false, false, false⟩)
          ⟨"at", "time", 0, 0, 0, false, false, true, false, []⟩ =
        .ok (⟨"at", "time", 0, 6, 0, false, false, true, false, []⟩, sqlType) :=
  ⟨(DataTypeOf_field_after (Open "dsn")
      ⟨"name", "string", 32, 0, 0, false, false, false, false, []⟩).1 (by decide),
    (DataTypeOf_field_after
      (New ⟨"dm", "dsn", none, false, 0, some 6, false, false, false, false⟩)
      ⟨"at", "time", 0, 0, 0, false, false, true, false, []⟩).2 (by decide) 6 rfl⟩

/-- C15: for a field of logical type `time` under a configured default
precision, with the effective precision `p` of the field, the result is
`datetime`, then `(p)` exactly when `p > 0`, then ` NULL` exactly when the field
is neither not-null nor a primary key; with the toggle on and precision 0 the
result has no `(p)` part. -/
theorem DataTypeOf_time (d : Dialector) (field : Field) (configured : Int)
    (h : field.DataType = "time")
    (hcfg : d.Config.DefaultDatetimePrecision = some configured) :
    (∃ after, DataTypeOf d field =
        .ok (after,
          "datetime" ++
            (if 0 < effectivePrecision d field configured then
              "(" ++ Itoa (effectivePrecision d field configured) ++ ")"
            else "") ++
            (if field.NotNull = true ∨ field.PrimaryKey = true then "" else " NULL"))) ∧
      (d.Config.DisableDatetimePrecision = true → field.Precision = 0 →
        DataTypeOf d field =
          .ok (field,
            "datetime" ++
              (if field.NotNull = true ∨ field.PrimaryKey = true then "" else " NULL"))) := by
  constructor
  · rw [DataTypeOf_time_eq d field h]
    by_cases hc : d.Config.DisableDatetimePrecision = false ∧ field.Precision = 0
    · have hp : effectivePrecision d field configured = configured := by
        unfold effectivePrecision
        rw [if_pos ⟨hc.2, hc.1⟩]
      rw [if_pos hc, hcfg, hp]
      simp only
      by_cases hn : field.NotNull = true ∨ field.PrimaryKey = true
      · rw [if_pos hn, if_pos hn]
        exact ⟨_, by rw [String.append_empty]⟩
      · rw [if_neg hn, if_neg hn]
        exact ⟨_, rfl⟩
    · have hp : effectivePrecision d field configured = field.Precision := by
        unfold effectivePrecision
        rw [if_neg (fun hc' => hc ⟨hc'.2, hc'.1⟩)]
      rw [if_neg hc, hp]
      simp only
      by_cases hn : field.NotNull = true ∨ field.PrimaryKey = true
      · rw [if_pos hn, if_pos hn]
        exact ⟨_, by rw [String.append_empty]⟩
      · rw [if_neg hn, if_neg hn]
        exact ⟨_, rfl⟩
  · intro hd hp
    have hc : ¬ (d.Config.DisableDatetimePrecision = false ∧ field.Precision = 0) := by
      rw [hd]
      exact fun hc => Bool.noConfusion hc.1
    rw [DataTypeOf_time_eq d field h, if_neg hc]
    simp only
    rw [hp]
    by_cases hn : field.NotNull = true ∨ field.PrimaryKey = true
    · rw [if_pos hn, if_pos hn]
      rfl
    · rw [if_neg hn, if_neg hn]
      rfl

/-- Witness of `DataTypeOf_time`: a nullable field of precision 0 under the configured
precision 3, and the same field under a configuration with the toggle on. -/
theorem DataTypeOf_time_witness :
    (∃ after,
        DataTypeOf (New ⟨"dm", "dsn", none, false, 0, some 3, false, false, false, false⟩)
          ⟨"at", "time", 0, 0, 0, false, false, false, false, []⟩ =
        .ok (after, "datetime(3) NULL")) ∧
      DataTypeOf (New ⟨"dm", "dsn", none, false, 0, some 3, true, false, false, false⟩)
          ⟨"at", "time", 0, 0, 0, false, false, false, false, []⟩ =
        .ok (⟨"at", "time", 0, 0, 0, false, false, false, false, []⟩, "datetime NULL") :=
  ⟨(DataTypeOf_time (New ⟨"dm", "dsn", none, false, 0, some 3, false, false, false, false⟩)
      ⟨"at", "time", 0, 0, 0, false, false, false, false, []⟩ 3 rfl rfl).1,
    (DataTypeOf_time (New ⟨"dm", "dsn", none, false, 0, some 3, true, false, false, false⟩)
      ⟨"at", "time", 0, 0, 0, false, false, false, false, []⟩ 3 rfl rfl).2 rfl rfl⟩

/-! ## `QuoteTo` -/

theorem splitChars_eq_splitOn (sep : Char) (l : List Char) :
    splitChars sep l = l.splitOn sep := by
  unfold List.splitOn
  induction l with
  | nil => rfl
  | cons c s ih =>
    rw [splitChars, List.splitOnP_cons, ih]
    by_cases hc : c = sep
    · simp [hc]
    · have hne := List.splitOnP_ne_nil (fun x => x == sep) s
      cases hs : List.splitOnP (fun x => x == sep) s with
      | nil => exact absurd hs hne
      | cons seg segs => simp [hc]

theorem splitOn_of_not_mem (sep : Char) (l : List Char) (h : sep ∉ l) :
    l.splitOn sep = [l] := by
  rw [← splitChars_eq_splitOn]
  induction l with
  | nil => rfl
  | cons c s ih =>
    have hc : c ≠ sep := fun hc => h (hc ▸ List.mem_cons_self _ _)
    rw [splitChars, if_neg hc, ih fun hs => h (List.mem_cons_of_mem _ hs)]

theorem intercalate_cons_flatMap (sep x : List Char) (l : List (List Char)) :
    List.intercalate sep (x :: l) = x ++ l.flatMap fun y => sep ++ y := by
  induction l generalizing x with
  | nil => simp [List.intercalate]
  | cons y l ih =>
    have h := ih y
    simp only [List.intercalate, List.intersperse_cons₂, List.flatten_cons, List.flatMap_cons]
      at h ⊢
    rw [h, List.append_assoc]

theorem Contains_dot (str : String) : Contains str "." = true ↔ Char.ofNat 46 ∈ str.data := by
  have hb : ".".data = [Char.ofNat 46] := by decide
  rw [Contains, containsChars_iff, hb]
  constructor
  · rintro ⟨pre, post, h⟩
    rw [← h]
    simp
  · intro h
    obtain ⟨pre, post, h⟩ := List.append_of_mem h
    exact ⟨pre, post, by rw [h]; simp⟩

theorem render_quoteSegments (r : Renderer) (segs : List (List Char)) :
    ∀ idx : Nat, 0 < idx →
      (render r (quoteSegments [] idx (segs.map String.mk))).data =
        segs.flatMap fun seg => [Char.ofNat 46] ++ (dquote :: seg ++ [dquote]) := by
  induction segs with
  | nil => intro idx _; rfl
  | cons seg segs ih =>
    intro idx hidx
    have hd : ".\"".data = [Char.ofNat 46, dquote] := by decide
    have hq : "\"".data = [dquote] := by decide
    rw [List.map_cons, quoteSegments, quoteSegments_append, render_append, String.data_append,
      ih (idx + 1) (Nat.succ_pos idx), List.flatMap_cons]
    simp [hidx, render, Write.text, String.data_append, hd, hq]
    rfl

theorem render_QuoteTo_nil (r : Renderer) (str : String) :
    (render r (QuoteTo [] str)).data = quotedName str := by
  have hq : "\"".data = [dquote] := by decide
  unfold quotedName
  by_cases hc : Contains str "." = true
  · have hne := List.splitOnP_ne_nil (fun x => x == Char.ofNat 46) str.data
    simp only [QuoteTo, hc, if_true, Split, splitChars_eq_splitOn]
    cases hs : str.data.splitOn (Char.ofNat 46) with
    | nil => exact absurd hs hne
    | cons seg segs =>
      rw [List.map_cons, quoteSegments, quoteSegments_append, render_append, String.data_append,
        render_quoteSegments r segs 1 Nat.one_pos, List.map_cons, intercalate_cons_flatMap,
        List.flatMap_map]
      simp [render, Write.text, String.data_append, hq]
      rfl
  · have hno : Char.ofNat 46 ∉ str.data := fun h => hc ((Contains_dot str).mpr h)
    simp only [QuoteTo, hc, Bool.false_eq_true, if_false, splitOn_of_not_mem _ _ hno]
    simp [render, Write.text, String.data_append, hq, List.intercalate]
    rfl

/-- C17: the text that `QuoteTo` writes for a name is the name split on the dot,
each segment (as it is, empty ones included) between two double quotes, the
quoted segments joined by one dot, on the dotted and on the non-dotted path of
the code; `a` gives `"a"` and `s.t` gives `"s"."t"`. -/
theorem QuoteTo_reference (r : Renderer) (writer : List Write) (str : String) :
    (render r (QuoteTo writer str)).data = (render r writer).data ++ quotedName str ∧
      render r (QuoteTo [] "a") = "\"a\"" ∧
      render r (QuoteTo [] "s.t") = "\"s\".\"t\"" ∧
      render r (QuoteTo [] "") = "\"\"" ∧
      render r (QuoteTo [] "s..t") = "\"s\".\"\".\"t\"" := by
  refine ⟨?_, rfl, rfl, rfl, rfl⟩
  rw [QuoteTo_append, render_append, String.data_append, render_QuoteTo_nil]

/-! ## `Initialize` and `Apply` -/

/-- C18 (as stated, refuted): a configuration passed to `New` with the default
string size 256 and a connection pool does not keep its values through
`Initialize` and `Apply`: the default string size is 1024 afterwards. -/
theorem Initialize_overwrites_default_string_size :
    (Apply (fun _ => 0)
        (Initialize id (fun _ _ => .error "no driver") (fun db => .ok db)
          (New ⟨"dm", "dsn", some ⟨"pool"⟩, false, 256, some 3, false, false, false, false⟩)
          ⟨none, [], []⟩).1
        ⟨none⟩).1.Config ≠
        ⟨"dm", "dsn", some ⟨"pool"⟩, false, 256, some 3, false, false, false, false⟩ ∧
      (Apply (fun _ => 0)
        (Initialize id (fun _ _ => .error "no driver") (fun db => .ok db)
          (New ⟨"dm", "dsn", some ⟨"pool"⟩, false, 256, some 3, false, false, false, false⟩)
          ⟨none, [], []⟩).1
        ⟨none⟩).1.Config.DefaultStringSize = 1024 := by
  decide

/-- C18 (amended): after `Initialize` and `Apply` the configuration of the
dialector has the DSN, the connection pool and every toggle it had at
construction; its default string size is 1024; its driver name is `dm` when it
was empty and the given one otherwise; its default datetime precision is 3 when
it was unset and no `NowFunc` was configured, and the given one otherwise. -/
theorem Initialize_Apply_config (registerDefaultCallbacks : DB → DB)
    (sqlOpen : String → String → Except String ConnPool)
    (replaceCreate : DB → Except String DB) (overflow : Int → Int) (d : Dialector) (db : DB)
    (config : GormConfig) :
    (Apply overflow (Initialize registerDefaultCallbacks sqlOpen replaceCreate d db).1
        config).1.Config =
      ⟨if d.Config.DriverName = "" then "dm" else d.Config.DriverName, d.Config.DSN,
        d.Config.Conn, d.Config.SkipInitializeWithVersion, 1024,
        if config.NowFunc = none ∧ d.Config.DefaultDatetimePrecision = none then some 3
        else d.Config.DefaultDatetimePrecision,
        d.Config.DisableDatetimePrecision, d.Config.DontSupportRenameIndex,
        d.Config.DontSupportRenameColumn, d.Config.DontSupportForShareClause⟩ := by
  have hinit : (Initialize registerDefaultCallbacks sqlOpen replaceCreate d db).1.Config =
      ⟨if d.Config.DriverName = "" then "dm" else d.Config.DriverName, d.Config.DSN,
        d.Config.Conn, d.Config.SkipInitializeWithVersion, 1024,
        d.Config.DefaultDatetimePrecision, d.Config.DisableDatetimePrecision,
        d.Config.DontSupportRenameIndex, d.Config.DontSupportRenameColumn,
        d.Config.DontSupportForShareClause⟩ := by
    unfold Initialize
    simp only
    by_cases hn : d.Config.DriverName = ""
    · simp only [hn, if_true]
      repeat' split
      all_goals rfl
    · simp only [hn, if_false]
      repeat' split
      all_goals rfl
  generalize Initialize registerDefaultCallbacks sqlOpen replaceCreate d db = res at hinit
  obtain ⟨⟨c⟩, db1, err⟩ := res
  simp only at hinit
  subst hinit
  cases hnow : config.NowFunc with
  | some f => simp [Apply, hnow]
  | none =>
    cases hp : d.Config.DefaultDatetimePrecision with
    | none =>
      simp only [Apply, hnow, hp]
      split <;> simp
    | some p =>
      simp only [Apply, hnow, hp]
      split <;> simp

/-- C19 (failing input): with no `NowFunc` set and the default datetime
precision -1, the power of ten converts to the duration 0 and the division
`time.Second / 0` makes `Apply` panic. -/
theorem Apply_negative_precision (overflow : Int → Int) (dsn : String) :
    (Apply overflow (New ⟨"dm", dsn, none, false, 0, some (-1), false, false, false, false⟩)
        ⟨none⟩).2 = .error .divideByZero := by
  rfl

theorem Apply_round_unit (overflow : Int → Int) (d : Dialector) (p : Int)
    (hp : d.Config.DefaultDatetimePrecision = some p) (h0 : 0 ≤ p) (h9 : p ≤ 9) :
    (Apply overflow d ⟨none⟩).2 = .ok ⟨some (.rounded (10 ^ (9 - p).toNat))⟩ := by
  have hcases : p = 0 ∨ p = 1 ∨ p = 2 ∨ p = 3 ∨ p = 4 ∨ p = 5 ∨ p = 6 ∨ p = 7 ∨ p = 8 ∨
      p = 9 := by omega
  simp only [Apply, hp]
  rcases hcases with h | h | h | h | h | h | h | h | h | h <;> subst h <;> rfl

theorem Apply_round_unit_unset (overflow : Int → Int) (d : Dialector)
    (hp : d.Config.DefaultDatetimePrecision = none) :
    (Apply overflow d ⟨none⟩).2 = .ok ⟨some (.rounded 1000000)⟩ := by
  simp only [Apply, hp]
  rfl

end GormDM
